import Mathlib

/-!
Verification of the ring-buffer library in `src/src/lib.rs` (`RingBuff<T, CAP>`).

The Rust code is shallowly embedded: the struct becomes a Lean structure over
`List (Option T)`, each method becomes a pure function (mutating methods return
the new state), machine-integer (`usize`) arithmetic is `Nat` with an explicit
`% 2 ^ 64` at the one place where underflow is reachable (`pop`), and every
`unwrap`/`expect` panic that is reachable is modelled by an `Option` result.
`CAP` is the `const CAP : usize` generic; all index arithmetic assumes
`CAP ≥ 1` exactly where the source would otherwise underflow in `CAP - 1`.
-/

set_option autoImplicit false

/-- The number of values of the 64-bit `usize` type: `usize` subtraction in a
release build wraps modulo this constant. -/
def USIZE : Nat := 2 ^ 64

/-- `RingBuff<T, const CAP: usize>` (src/src/lib.rs:21-30): backing array
`data: [Option<T>; CAP]`, head cursor `reader`, tail cursor `writer`, and the
live-element count `size`. -/
structure RingBuff (T : Type) (CAP : Nat) where
  data : List (Option T)
  reader : Nat
  writer : Nat
  size : Nat
deriving DecidableEq, Repr

variable {T : Type} {CAP : Nat}

/-- `RingBuff::new` (src/src/lib.rs:40-49): all slots `None`,
`reader = writer = size = 0`.  The source performs no capacity validation. -/
def RingBuff.new (T : Type) (CAP : Nat) : RingBuff T CAP :=
  ⟨List.replicate CAP none, 0, 0, 0⟩

/-- `RingBuff::len` (src/src/lib.rs:195-197). -/
def RingBuff.len (b : RingBuff T CAP) : Nat := b.size

/-- `RingBuff::capacity` (src/src/lib.rs:204-206). -/
def RingBuff.capacity (_b : RingBuff T CAP) : Nat := CAP

/-- `RingBuff::is_empty` (src/src/lib.rs:179-181). -/
def RingBuff.is_empty (b : RingBuff T CAP) : Bool := b.size == 0

/-- `RingBuff::is_full` (src/src/lib.rs:187-189). -/
def RingBuff.is_full (b : RingBuff T CAP) : Bool := b.size == CAP

/-- `RingBuff::next_index` (src/src/lib.rs:86-92).  For `CAP = 0` the source
expression `CAP - 1` underflows `usize`; no operation is exercised at
`CAP = 0`, and for `CAP ≥ 1` the `Nat` subtraction agrees with the source. -/
def RingBuff.next_index (_b : RingBuff T CAP) (index : Nat) : Nat :=
  if index = CAP - 1 then 0 else index + 1

/-- `RingBuff::previous_index` (src/src/lib.rs:94-100). -/
def RingBuff.previous_index (_b : RingBuff T CAP) (index : Nat) : Nat :=
  if index = 0 then CAP - 1 else index - 1

/-- `RingBuff::relative_to_absolute_index` (src/src/lib.rs:102-110). -/
def RingBuff.relative_to_absolute_index (b : RingBuff T CAP) (index : Nat) :
    Option Nat :=
  if index ≥ b.len then none
  else if b.reader + index ≥ b.capacity then some ((b.reader + index) % b.capacity)
  else some (b.reader + index)

/-- `RingBuff::push_back` (src/src/lib.rs:55-65), statement by statement:
advance `reader` when full, write the element at `writer`, add
`!self.is_full() as usize` to `size`, advance `writer`. -/
def RingBuff.push_back (b : RingBuff T CAP) (element : T) : RingBuff T CAP :=
  let b1 : RingBuff T CAP :=
    if b.is_full then { b with reader := b.next_index b.reader } else b
  let b2 : RingBuff T CAP := { b1 with data := b1.data.set b1.writer (some element) }
  let b3 : RingBuff T CAP := { b2 with size := b2.size + (if b2.is_full then 0 else 1) }
  { b3 with writer := b3.next_index b3.writer }

/-- `RingBuff::pop` (src/src/lib.rs:72-78).  The source decrements `size`
without checking for emptiness: `self.size -= 1` wraps modulo `2 ^ 64` in a
release build (and aborts in a debug build) when `size = 0`.  The returned
value is `mem::take(&mut self.data[reader])`: the slot content at the saved
`reader`, with that slot cleared in the new state. -/
def RingBuff.pop (b : RingBuff T CAP) : Option T × RingBuff T CAP :=
  let reader := b.reader
  let b1 : RingBuff T CAP := { b with reader := b.next_index b.reader }
  let b2 : RingBuff T CAP := { b1 with size := (b1.size + (USIZE - 1)) % USIZE }
  (b2.data.getD reader none, { b2 with data := b2.data.set reader none })

/-- `RingBuff::get` (src/src/lib.rs:214-221).  The `expect("Index is valid.")`
on `relative_to_absolute_index` is unreachable (it returns `some` exactly when
`index < len`), so the `none` branch is dead code. -/
def RingBuff.get (b : RingBuff T CAP) (index : Nat) : Option T :=
  if index ≥ b.len then none
  else
    match b.relative_to_absolute_index index with
    | some i => b.data.getD i none
    | none => none

/-- `RingBuff::get_mut` (src/src/lib.rs:229-236): same lookup as `get`,
returning the value read through the mutable reference. -/
def RingBuff.get_mut (b : RingBuff T CAP) (index : Nat) : Option T :=
  if index ≥ b.len then none
  else
    match b.relative_to_absolute_index index with
    | some i => b.data.getD i none
    | none => none

/-- A caller writing `x` through the mutable reference returned by
`get_mut index` (no-op when `get_mut` returns `None`).  This models the only
mutation `get_mut` enables: replacing the pointed-to element in place. -/
def RingBuff.get_mut_write (b : RingBuff T CAP) (index : Nat) (x : T) :
    RingBuff T CAP :=
  if index ≥ b.len then b
  else
    match b.relative_to_absolute_index index with
    | some i =>
      if (b.data.getD i none).isSome then { b with data := b.data.set i (some x) }
      else b
    | none => b

/-- `<[Option T]>::swap(idx, jdx)` on the backing array, as used by the
compaction loop of `retain_mut`. -/
def swapSlots (l : List (Option T)) (i j : Nat) : List (Option T) :=
  (l.set i (l.getD j none)).set j (l.getD i none)

variable {σ : Type}

/-- One iteration of the first (mark) loop of `RingBuff::retain_mut`
(src/src/lib.rs:139-145) at logical index `i`.  The Rust predicate is an
`FnMut(&mut T) -> bool` closure: it is modelled as `f : σ → T → σ × T × Bool`
threading the closure's captured state `σ`, returning the (possibly mutated)
element and the keep/reject decision.  The loop state is
`(closure state, data, writer, size local variable)`.  `self.reader` and
`self.size` are not written inside either loop, so the intermediate `self` of
the source agrees with the entry state `b` on everything the loop body reads
through; a `none` result models the reachable panic of
`self.get_mut(i).unwrap()` on an empty live slot (the
`relative_to_absolute_index(i).unwrap()` is unreachable for `i < len`). -/
def RingBuff.markStep (b : RingBuff T CAP) (f : σ → T → σ × T × Bool)
    (st : Option (σ × List (Option T) × Nat × Nat)) (i : Nat) :
    Option (σ × List (Option T) × Nat × Nat) :=
  match st with
  | none => none
  | some (s, data, writer, sz) =>
    match b.relative_to_absolute_index i with
    | none => none
    | some a =>
      match data.getD a none with
      | none => none
      | some e =>
        let r := f s e
        if r.2.2 then some (r.1, data.set a (some r.2.1), writer, sz)
        else some (r.1, data.set a none, b.previous_index writer, sz - 1)

/-- One iteration of the second (compaction) loop of `RingBuff::retain_mut`
(src/src/lib.rs:147-158) at logical index `i`: if the slot at logical `i` is
empty, find the first `j ∈ [i, len)` whose slot is occupied and swap the two
physical slots.  Both `unwrap`s on `relative_to_absolute_index` are unreachable
(`i, j < len`). -/
def RingBuff.compactStep (b : RingBuff T CAP) (data : List (Option T)) (i : Nat) :
    List (Option T) :=
  if (({ b with data := data } : RingBuff T CAP).get_mut i).isNone then
    match (List.range' i (b.len - i)).find?
        (fun j => (({ b with data := data } : RingBuff T CAP).get_mut j).isSome) with
    | some j =>
      match b.relative_to_absolute_index i, b.relative_to_absolute_index j with
      | some idx, some jdx => swapSlots data idx jdx
      | _, _ => data
    | none => data
  else data

/-- `RingBuff::retain_mut` (src/src/lib.rs:132-161): the mark loop over
`0..self.len()`, then the compaction loop over `0..self.len()` (both ranges are
evaluated once, before `self.size` is finally set to the local `size`). -/
def RingBuff.retain_mut (b : RingBuff T CAP) (f : σ → T → σ × T × Bool) (s : σ) :
    Option (RingBuff T CAP × σ) :=
  match (List.range b.len).foldl (b.markStep f) (some (s, b.data, b.writer, b.len)) with
  | none => none
  | some (s', data1, writer1, sz) =>
    let data2 := (List.range b.len).foldl (b.compactStep) data1
    some ({ b with data := data2, writer := writer1, size := sz }, s')

/-- `RingBuff::retain` (src/src/lib.rs:118-123): delegates to `retain_mut`
with a read-only predicate. -/
def RingBuff.retain (b : RingBuff T CAP) (f : σ → T → σ × Bool) (s : σ) :
    Option (RingBuff T CAP × σ) :=
  b.retain_mut (fun s e => ((f s e).1, e, (f s e).2)) s

/-- Iterating `self.pop()` n times, discarding the returned values. -/
def RingBuff.popN (b : RingBuff T CAP) : Nat → RingBuff T CAP
  | 0 => b
  | n + 1 => (b.pop).2.popN n

/-- `RingBuff::clear` (src/src/lib.rs:169-173): `for _ in 0..self.size`
(bound read once at entry) `{ self.pop(); }`. -/
def RingBuff.clear (b : RingBuff T CAP) : RingBuff T CAP := b.popN b.size

/-- `RingBuffIter` (src/src/lib.rs:263-270). -/
structure RingBuffIter (T : Type) (CAP : Nat) where
  buffer : RingBuff T CAP
  index : Nat
  count : Nat

/-- `RingBuff::iter` (src/src/lib.rs:242-248). -/
def RingBuff.iter (b : RingBuff T CAP) : RingBuffIter T CAP := ⟨b, b.reader, 0⟩

/-- `Iterator::next for RingBuffIter` (src/src/lib.rs:275-284): returns the
yielded item (`current.as_ref()`: `none` both at the end of iteration and on an
empty slot) together with the advanced iterator. -/
def RingBuffIter.next (it : RingBuffIter T CAP) : Option T × RingBuffIter T CAP :=
  if it.count = it.buffer.len then (none, it)
  else
    (it.buffer.data.getD it.index none,
     { it with index := it.buffer.next_index it.index, count := it.count + 1 })

/-- Driving the iterator the way a `for` loop does: collect yielded items until
`next` returns `None`; `fuel` bounds the number of steps taken. -/
def RingBuffIter.collect : RingBuffIter T CAP → Nat → List T
  | _, 0 => []
  | it, fuel + 1 =>
    match it.next with
    | (none, _) => []
    | (some x, it') => x :: it'.collect fuel

/-- Modelled from the spec: `peek` is absent from src/src/lib.rs (only the spec
describes it).  Spec §4.2: "peek(): if `count = 0`, returns empty; otherwise
returns a read-only reference to the element at `head` without mutating any
cursor." -/
def RingBuff.peek (b : RingBuff T CAP) : Option T :=
  if b.size = 0 then none else b.data.getD b.reader none

/-- The window of logical slots: entry `i` is the physical slot
`(reader + i) % CAP`, for `i ∈ [0, n)`. -/
def windowList (r n CAP : Nat) (data : List (Option T)) : List (Option T) :=
  (List.range n).map fun i => data.getD ((r + i) % CAP) none

/-- The buffer's live window, oldest to newest, as stored slots. -/
def RingBuff.logicalList (b : RingBuff T CAP) : List (Option T) :=
  windowList b.reader b.size CAP b.data

/-- The buffer's live elements, oldest to newest. -/
def RingBuff.contents (b : RingBuff T CAP) : List T :=
  b.logicalList.filterMap id

/-- The representation invariant of `RingBuff`: backing array of length `CAP`,
cursors in range, `size ≤ CAP`, `writer = (reader + size) % CAP`, and every
live logical slot occupied. -/
def RingBuff.wf (b : RingBuff T CAP) : Prop :=
  b.data.length = CAP ∧ b.reader < CAP ∧ b.writer < CAP ∧ b.size ≤ CAP ∧
  b.writer = (b.reader + b.size) % CAP ∧
  ∀ i, i < b.size → (b.data.getD ((b.reader + i) % CAP) none).isSome = true

instance (b : RingBuff T CAP) : Decidable b.wf := by
  unfold RingBuff.wf
  infer_instance

/-- The states reachable from a freshly constructed buffer by the mutating
API: `push_back`, `pop` on a non-empty buffer, writes through `get_mut`,
`clear`, `retain`, and `retain_mut` (with an arbitrary stateful closure). -/
inductive RingBuff.Reachable (T : Type) (CAP : Nat) : RingBuff T CAP → Prop where
  | new : Reachable T CAP (RingBuff.new T CAP)
  | push (b : RingBuff T CAP) (x : T) :
      Reachable T CAP b → Reachable T CAP (b.push_back x)
  | pop (b : RingBuff T CAP) :
      Reachable T CAP b → b.size ≠ 0 → Reachable T CAP (b.pop).2
  | get_mut_write (b : RingBuff T CAP) (i : Nat) (x : T) :
      Reachable T CAP b → Reachable T CAP (b.get_mut_write i x)
  | clear (b : RingBuff T CAP) :
      Reachable T CAP b → Reachable T CAP b.clear
  | retain {σ : Type} (b : RingBuff T CAP) (f : σ → T → σ × Bool) (s : σ)
      (b' : RingBuff T CAP) (s' : σ) :
      Reachable T CAP b → b.retain f s = some (b', s') → Reachable T CAP b'
  | retain_mut {σ : Type} (b : RingBuff T CAP) (f : σ → T → σ × T × Bool) (s : σ)
      (b' : RingBuff T CAP) (s' : σ) :
      Reachable T CAP b → b.retain_mut f s = some (b', s') → Reachable T CAP b'

/-! ### Basic facts about the index arithmetic and accessors -/

theorem RingBuff.next_index_eq (b : RingBuff T CAP) {i : Nat} (h : i < CAP) :
    b.next_index i = (i + 1) % CAP := by
  unfold RingBuff.next_index
  rcases Nat.lt_or_ge (i + 1) CAP with h1 | h1
  · rw [if_neg (by omega), Nat.mod_eq_of_lt h1]
  · have : i = CAP - 1 := by omega
    rw [if_pos this, this]
    have : CAP - 1 + 1 = CAP := by omega
    rw [this, Nat.mod_self]

theorem RingBuff.next_index_lt (b : RingBuff T CAP) {i : Nat} (h : i < CAP) :
    b.next_index i < CAP := by
  rw [b.next_index_eq h]
  exact Nat.mod_lt _ (by omega)

theorem RingBuff.previous_index_eq (b : RingBuff T CAP) {i : Nat} (h : i < CAP) :
    b.previous_index i = (i + (CAP - 1)) % CAP := by
  unfold RingBuff.previous_index
  rcases Nat.eq_zero_or_pos i with h0 | h0
  · rw [if_pos h0, h0, Nat.zero_add, Nat.mod_eq_of_lt (by omega)]
  · rw [if_neg (by omega)]
    have : i + (CAP - 1) = (i - 1) + CAP := by omega
    rw [this, Nat.add_mod_right, Nat.mod_eq_of_lt (by omega)]

theorem RingBuff.previous_index_lt (b : RingBuff T CAP) {i : Nat}
    (hC : 0 < CAP) (h : i < CAP) : b.previous_index i < CAP := by
  rw [b.previous_index_eq h]
  exact Nat.mod_lt _ hC

theorem RingBuff.rel_abs_eq (b : RingBuff T CAP) (i : Nat) :
    b.relative_to_absolute_index i =
      if i < b.size then some ((b.reader + i) % CAP) else none := by
  unfold RingBuff.relative_to_absolute_index RingBuff.len RingBuff.capacity
  rcases Nat.lt_or_ge i b.size with h | h
  · rw [if_neg (by omega), if_pos h]
    rcases Nat.lt_or_ge (b.reader + i) CAP with h1 | h1
    · rw [if_neg (by omega), Nat.mod_eq_of_lt h1]
    · rw [if_pos h1]
  · rw [if_pos h, if_neg (by omega)]

theorem RingBuff.get_eq (b : RingBuff T CAP) (i : Nat) :
    b.get i = if i < b.size then b.data.getD ((b.reader + i) % CAP) none
              else none := by
  unfold RingBuff.get
  rw [b.rel_abs_eq i]
  rcases Nat.lt_or_ge i b.size with h | h
  · rw [if_neg (by unfold RingBuff.len; omega), if_pos h, if_pos h]
  · rw [if_pos (by unfold RingBuff.len; omega), if_neg (by omega)]

theorem RingBuff.get_mut_eq (b : RingBuff T CAP) (i : Nat) :
    b.get_mut i = b.get i := by
  unfold RingBuff.get_mut RingBuff.get
  rfl

/-! ### The logical window -/

theorem windowList_length (r n CAP : Nat) (data : List (Option T)) :
    (windowList r n CAP data).length = n := by
  unfold windowList
  rw [List.length_map, List.length_range]

theorem windowList_getElem? (r n CAP : Nat) (data : List (Option T)) (m : Nat) :
    (windowList r n CAP data)[m]? =
      if m < n then some (data.getD ((r + m) % CAP) none) else none := by
  unfold windowList
  rcases Nat.lt_or_ge m n with h | h
  · rw [if_pos h, List.getElem?_map, List.getElem?_range h, Option.map_some']
  · rw [if_neg (by omega), List.getElem?_eq_none]
    rw [List.length_map, List.length_range]
    omega

theorem windowList_getD (r n CAP : Nat) (data : List (Option T)) {m : Nat}
    (h : m < n) :
    (windowList r n CAP data).getD m none = data.getD ((r + m) % CAP) none := by
  rw [List.getD_eq_getElem?_getD, windowList_getElem?, if_pos h, Option.getD_some]

theorem abs_index_inj {r n CAP i j : Nat} (hn : n ≤ CAP) (hi : i < n) (hj : j < n)
    (h : (r + i) % CAP = (r + j) % CAP) : i = j := by
  have hC : 0 < CAP := by omega
  have hmod : i % CAP = j % CAP := Nat.ModEq.add_left_cancel' r h
  rw [Nat.mod_eq_of_lt (by omega), Nat.mod_eq_of_lt (by omega)] at hmod
  exact hmod

theorem windowList_set {r n CAP : Nat} {data : List (Option T)}
    (hlen : data.length = CAP) (hn : n ≤ CAP) {j : Nat} (hj : j < n)
    (v : Option T) :
    windowList r n CAP (data.set ((r + j) % CAP) v) =
      (windowList r n CAP data).set j v := by
  have hC : 0 < CAP := by omega
  have habsj : (r + j) % CAP < CAP := Nat.mod_lt _ hC
  apply List.ext_getElem?
  intro m
  rw [windowList_getElem?, List.getElem?_set, windowList_getElem?,
    windowList_length]
  rcases Nat.lt_or_ge m n with hm | hm
  · rw [if_pos hm, if_pos hm]
    by_cases hjm : j = m
    · subst hjm
      rw [if_pos rfl, if_pos hj, List.getD_eq_getElem?_getD,
        List.getElem?_set_self (by omega), Option.getD_some]
    · have : (r + j) % CAP ≠ (r + m) % CAP := fun hc =>
        hjm (abs_index_inj hn hj hm hc)
      rw [if_neg hjm, List.getD_eq_getElem?_getD,
        List.getElem?_set_ne this, ← List.getD_eq_getElem?_getD]
  · rw [if_neg (by omega), if_neg (by omega), if_neg (by omega)]

theorem length_swapSlots (l : List (Option T)) (i j : Nat) :
    (swapSlots l i j).length = l.length := by
  unfold swapSlots
  rw [List.length_set, List.length_set]

theorem windowList_swapSlots {r n CAP : Nat} {data : List (Option T)}
    (hlen : data.length = CAP) (hn : n ≤ CAP) {i j : Nat} (hi : i < n)
    (hj : j < n) :
    windowList r n CAP (swapSlots data ((r + i) % CAP) ((r + j) % CAP)) =
      swapSlots (windowList r n CAP data) i j := by
  unfold swapSlots
  rw [windowList_set (by rw [List.length_set]; exact hlen) hn hj,
    windowList_set hlen hn hi, windowList_getD _ _ _ _ hj,
    windowList_getD _ _ _ _ hi]

/-! ### The compaction loop, abstractly on the logical window -/

/-- The compaction loop body of `retain_mut`, expressed on the logical window
itself (a list of length `n`): if position `i` is empty, swap in the first
occupied position `j ∈ [i, n)`. -/
def compactListStep (n : Nat) (L : List (Option T)) (i : Nat) : List (Option T) :=
  if (L.getD i none).isNone then
    match (List.range' i (n - i)).find? (fun j => (L.getD j none).isSome) with
    | some j => swapSlots L i j
    | none => L
  else L

/-- The intended result of compaction: the occupied slots moved to the front,
in order, followed by empty slots. -/
def padCompact (M : List (Option T)) : List (Option T) :=
  (M.filterMap id).map some ++
    List.replicate (M.length - (M.filterMap id).length) none

theorem find?_range'_eq_some {p : Nat → Bool} :
    ∀ {m i j : Nat}, (List.range' i m).find? p = some j →
      i ≤ j ∧ j < i + m ∧ p j = true ∧ ∀ j', i ≤ j' → j' < j → p j' = false := by
  intro m
  induction m with
  | zero => intro i j h; simp [List.find?] at h
  | succ m ih =>
    intro i j h
    rw [List.range'_succ] at h
    by_cases hp : p i = true
    · rw [List.find?_cons_of_pos _ hp] at h
      cases h
      exact ⟨Nat.le_refl _, by omega, hp, fun j' h1 h2 => by omega⟩
    · rw [List.find?_cons_of_neg _ hp] at h
      obtain ⟨h1, h2, h3, h4⟩ := ih h
      refine ⟨by omega, by omega, h3, fun j' hj1 hj2 => ?_⟩
      rcases Nat.eq_or_lt_of_le hj1 with rfl | hlt
      · exact Bool.not_eq_true _ ▸ (by simpa using hp)
      · exact h4 j' hlt hj2

theorem find?_range'_eq_none {p : Nat → Bool} :
    ∀ {m i : Nat}, (List.range' i m).find? p = none →
      ∀ j', i ≤ j' → j' < i + m → p j' = false := by
  intro m
  induction m with
  | zero => intro i h j' h1 h2; omega
  | succ m ih =>
    intro i h j' h1 h2
    rw [List.range'_succ] at h
    by_cases hp : p i = true
    · rw [List.find?_cons_of_pos _ hp] at h; cases h
    · rw [List.find?_cons_of_neg _ hp] at h
      rcases Nat.eq_or_lt_of_le h1 with rfl | hlt
      · simpa using hp
      · exact ih h j' hlt (by omega)

theorem swapSlots_cons (a : Option T) (t : List (Option T)) (p q : Nat) :
    swapSlots (a :: t) (p + 1) (q + 1) = a :: swapSlots t p q := by
  unfold swapSlots
  rw [List.getD_cons_succ, List.getD_cons_succ, List.set_cons_succ,
    List.set_cons_succ]

theorem compactListStep_cons (n : Nat) (a : Option T) (t : List (Option T))
    (i : Nat) :
    compactListStep n (a :: t) (i + 1) = a :: compactListStep (n - 1) t i := by
  unfold compactListStep
  rw [List.getD_cons_succ]
  by_cases h : (t.getD i none).isNone
  · rw [if_pos h, if_pos h]
    have hm : n - (i + 1) = n - 1 - i := by omega
    have hshift : (List.range' (i + 1) (n - (i + 1))).find?
          (fun j => ((a :: t).getD j none).isSome) =
        ((List.range' i (n - 1 - i)).find?
          (fun j => ((t.getD j none).isSome : Bool))).map (· + 1) := by
      rw [hm, List.range'_eq_map_range, List.range'_eq_map_range,
        List.find?_map, List.find?_map, Option.map_map]
      have hfun : ((fun j => ((a :: t).getD j none).isSome) ∘ fun x => i + 1 + x)
          = ((fun j => ((t.getD j none).isSome : Bool)) ∘ fun x => i + x) := by
        funext k
        show ((a :: t).getD (i + 1 + k) none).isSome
          = ((t.getD (i + k) none).isSome : Bool)
        have : i + 1 + k = (i + k) + 1 := by omega
        rw [this, List.getD_cons_succ]
      rw [hfun]
      congr 1
      funext k
      show i + 1 + k = (i + k) + 1
      omega
    rw [hshift]
    cases hF : (List.range' i (n - 1 - i)).find?
        (fun j => ((t.getD j none).isSome : Bool)) with
    | none => rw [Option.map_none']
    | some j =>
      rw [Option.map_some']
      have : j + 1 = j + 1 := rfl
      show swapSlots (a :: t) (i + 1) (j + 1) = a :: swapSlots t i j
      exact swapSlots_cons a t i j
  · rw [if_neg h, if_neg h]

theorem foldl_compactListStep_cons (n : Nat) (a : Option T) :
    ∀ (l : List Nat) (t : List (Option T)),
      l.foldl (fun L k => compactListStep n L (k + 1)) (a :: t) =
        a :: l.foldl (compactListStep (n - 1)) t := by
  intro l
  induction l with
  | nil => intro t; rfl
  | cons k l ih =>
    intro t
    rw [List.foldl_cons, List.foldl_cons, compactListStep_cons]
    exact ih _

theorem foldl_compactListStep (n : Nat) :
    ∀ L : List (Option T), L.length = n →
      (List.range n).foldl (compactListStep n) L = padCompact L := by
  induction n with
  | zero =>
    intro L hL
    rw [List.length_eq_zero] at hL
    subst hL
    rfl
  | succ n ih =>
    intro L hL
    cases L with
    | nil => simp at hL
    | cons a t =>
      have ht : t.length = n := by simpa using hL
      rw [List.range_succ_eq_map, List.foldl_cons, List.foldl_map]
      have hshift : ∀ u : List (Option T), ∀ c : Option T,
          (List.range n).foldl (fun x y => compactListStep (n + 1) x y.succ)
            (c :: u) = c :: (List.range n).foldl (compactListStep n) u := by
        intro u c
        have := foldl_compactListStep_cons (T := T) (n + 1) c (List.range n) u
        simpa [Nat.succ_eq_add_one] using this
      cases a with
      | some x =>
        have hstep : compactListStep (n + 1) (some x :: t) 0 = some x :: t := by
          unfold compactListStep
          rw [List.getD_cons_zero]
          simp
        rw [hstep, hshift, ih t ht]
        unfold padCompact
        rw [List.filterMap_cons]
        simp only [id_eq]
        rw [List.length_cons, List.map_cons, List.cons_append,
          List.length_cons, Nat.succ_sub_succ]
      | none =>
        have hd : (((none : Option T) :: t).getD 0 none).isNone = true := by
          rw [List.getD_cons_zero]; rfl
        cases hF : (List.range' 0 (n + 1 - 0)).find?
            (fun j => (((none : Option T) :: t).getD j none).isSome) with
        | none =>
          have hstep : compactListStep (n + 1) ((none : Option T) :: t) 0
              = none :: t := by
            unfold compactListStep
            rw [if_pos hd, hF]
          have hall := find?_range'_eq_none hF
          have htz : ∀ m, m < n → t.getD m none = none := by
            intro m hm
            have h1 := hall (m + 1) (by omega) (by omega)
            rw [List.getD_cons_succ] at h1
            cases hcase : t.getD m none with
            | none => rfl
            | some y => rw [hcase] at h1; simp at h1
          have hfm : t.filterMap id = [] := by
            rw [List.filterMap_eq_nil_iff]
            intro o ho
            obtain ⟨m, hm, rfl⟩ := List.mem_iff_getElem.mp ho
            have := htz m (by omega)
            rw [List.getD_eq_getElem _ _ (by omega)] at this
            simpa using this
          rw [hstep, hshift, ih t ht]
          unfold padCompact
          rw [List.filterMap_cons]
          simp only [id_eq]
          rw [hfm]
          simp [List.replicate_succ, ht]
        | some j =>
          obtain ⟨hj0, hjlt, hjp, hjmin⟩ := find?_range'_eq_some hF
          cases j with
          | zero =>
            rw [List.getD_cons_zero] at hjp
            simp at hjp
          | succ j' =>
            rw [List.getD_cons_succ] at hjp
            obtain ⟨x, hx⟩ := Option.isSome_iff_exists.mp hjp
            have hj'n : j' < n := by omega
            have hmin' : ∀ m, m < j' → t.getD m none = none := by
              intro m hm
              have h1 := hjmin (m + 1) (by omega) (by omega)
              rw [List.getD_cons_succ] at h1
              cases hcase : t.getD m none with
              | none => rfl
              | some y => rw [hcase] at h1; simp at h1
            have hstep : compactListStep (n + 1) ((none : Option T) :: t) 0
                = some x :: t.set j' none := by
              unfold compactListStep
              rw [if_pos hd, hF]
              show swapSlots ((none : Option T) :: t) 0 (j' + 1)
                = some x :: t.set j' none
              unfold swapSlots
              rw [List.getD_cons_succ, hx, List.getD_cons_zero,
                List.set_cons_zero, List.set_cons_succ]
            have htake : t.take j' = List.replicate j' none := by
              apply List.ext_getElem
              · rw [List.length_take, List.length_replicate]; omega
              · intro m h1 h2
                rw [List.getElem_take, List.getElem_replicate]
                rw [List.length_replicate] at h2
                have := hmin' m h2
                rw [List.getD_eq_getElem _ _ (by omega)] at this
                exact this
            have hjt : j' < t.length := by omega
            have hsplit : t = t.take j' ++ t[j'] :: t.drop (j' + 1) := by
              conv_lhs => rw [← List.take_append_drop j' t]
              rw [List.drop_eq_getElem_cons hjt]
            have hgj : t[j'] = some x := by
              rw [← List.getD_eq_getElem t none hjt, hx]
            have hfmt : t.filterMap id
                = x :: (t.drop (j' + 1)).filterMap id := by
              conv_lhs => rw [hsplit]
              rw [List.filterMap_append, htake, List.filterMap_replicate]
              rw [hgj, List.filterMap_cons]
              simp
            have hfms : (t.set j' none).filterMap id
                = (t.drop (j' + 1)).filterMap id := by
              rw [List.set_eq_take_append_cons_drop, if_pos (by omega)]
              rw [List.filterMap_append, htake, List.filterMap_replicate,
                List.filterMap_cons]
              simp
            rw [hstep, hshift, ih (t.set j' none) (by rw [List.length_set]; exact ht)]
            unfold padCompact
            rw [List.filterMap_cons]
            simp only [id_eq]
            rw [hfmt, hfms, List.length_cons, List.length_set,
              List.map_cons, List.cons_append, List.length_cons,
              Nat.succ_sub_succ]

/-! ### The mark loop, abstractly on the logical window -/

/-- The mark loop of `retain_mut`, abstractly on the logical window: apply the
closure to each live slot in order, keeping the (possibly mutated) element or
clearing the slot.  An empty live slot makes the source's
`self.get_mut(i).unwrap()` panic, modelled by `none`. -/
def markListO (f : σ → T → σ × T × Bool) :
    σ → List (Option T) → Option (σ × List (Option T))
  | s, [] => some (s, [])
  | _, none :: _ => none
  | s, some e :: es =>
    let r := f s e
    (markListO f r.1 es).map fun q =>
      (q.1, (if r.2.2 then some r.2.1 else none) :: q.2)

/-- The mark result on a window of occupied slots, as a pure fold. -/
def markFold (f : σ → T → σ × T × Bool) : σ → List T → σ × List (Option T)
  | s, [] => (s, [])
  | s, e :: es =>
    let r := f s e
    let q := markFold f r.1 es
    (q.1, (if r.2.2 then some r.2.1 else none) :: q.2)

/-- The number of cleared slots after the mark phase. -/
def noneCount (M : List (Option T)) : Nat := M.countP fun o => o.isNone

theorem markListO_map_some (f : σ → T → σ × T × Bool) (s : σ) (E : List T) :
    markListO f s (E.map some) = some (markFold f s E) := by
  induction E generalizing s with
  | nil => rfl
  | cons e es ih =>
    rw [List.map_cons]
    show (markListO f (f s e).1 (es.map some)).map _ = _
    rw [ih]
    rfl

theorem noneCount_nil : noneCount ([] : List (Option T)) = 0 := rfl

theorem noneCount_cons_some (x : T) (M : List (Option T)) :
    noneCount (some x :: M) = noneCount M := by
  unfold noneCount
  rw [List.countP_cons]
  simp

theorem noneCount_cons_none (M : List (Option T)) :
    noneCount ((none : Option T) :: M) = noneCount M + 1 := by
  unfold noneCount
  rw [List.countP_cons]
  simp

theorem filterMap_length_add_noneCount (M : List (Option T)) :
    (M.filterMap id).length + noneCount M = M.length := by
  induction M with
  | nil => rfl
  | cons a t ih =>
    cases a with
    | none =>
      rw [List.filterMap_cons, noneCount_cons_none]
      simp only [id_eq]
      rw [List.length_cons]
      omega
    | some x =>
      rw [List.filterMap_cons, noneCount_cons_some]
      simp only [id_eq]
      rw [List.length_cons, List.length_cons]
      omega

theorem markListO_length (f : σ → T → σ × T × Bool) :
    ∀ (L : List (Option T)) (s s' : σ) (M : List (Option T)),
      markListO f s L = some (s', M) → M.length = L.length := by
  intro L
  induction L with
  | nil => intro s s' M h; cases h; rfl
  | cons a t ih =>
    intro s s' M h
    cases a with
    | none => cases h
    | some e =>
      simp only [markListO] at h
      cases hrec : markListO f (f s e).1 t with
      | none => rw [hrec] at h; cases h
      | some q =>
        rw [hrec, Option.map_some'] at h
        cases h
        rw [List.length_cons, List.length_cons, ih _ _ _ hrec]

theorem windowList_getElem (r n CAP : Nat) (data : List (Option T)) {m : Nat}
    (h : m < (windowList r n CAP data).length) :
    (windowList r n CAP data)[m] = data.getD ((r + m) % CAP) none := by
  unfold windowList
  rw [List.getElem_map, List.getElem_range]

theorem foldl_markStep_none (b : RingBuff T CAP) (f : σ → T → σ × T × Bool)
    (l : List Nat) : l.foldl (b.markStep f) none = none := by
  induction l with
  | nil => rfl
  | cons k l ih => rw [List.foldl_cons]; exact ih

theorem markStep_panic (b : RingBuff T CAP) (f : σ → T → σ × T × Bool)
    (s : σ) (data : List (Option T)) (w sz k : Nat) (hk : k < b.size)
    (hslot : data.getD ((b.reader + k) % CAP) none = none) :
    b.markStep f (some (s, data, w, sz)) k = none := by
  unfold RingBuff.markStep
  rw [b.rel_abs_eq k, if_pos hk]
  simp only [hslot]

theorem markStep_keep (b : RingBuff T CAP) (f : σ → T → σ × T × Bool)
    (s : σ) (data : List (Option T)) (w sz k : Nat) (hk : k < b.size) (e : T)
    (hslot : data.getD ((b.reader + k) % CAP) none = some e)
    (hkeep : (f s e).2.2 = true) :
    b.markStep f (some (s, data, w, sz)) k =
      some ((f s e).1, data.set ((b.reader + k) % CAP) (some (f s e).2.1),
        w, sz) := by
  unfold RingBuff.markStep
  rw [b.rel_abs_eq k, if_pos hk]
  simp only [hslot, hkeep, if_true]

theorem markStep_reject (b : RingBuff T CAP) (f : σ → T → σ × T × Bool)
    (s : σ) (data : List (Option T)) (w sz k : Nat) (hk : k < b.size) (e : T)
    (hslot : data.getD ((b.reader + k) % CAP) none = some e)
    (hkeep : (f s e).2.2 = false) :
    b.markStep f (some (s, data, w, sz)) k =
      some ((f s e).1, data.set ((b.reader + k) % CAP) none,
        b.previous_index w, sz - 1) := by
  unfold RingBuff.markStep
  rw [b.rel_abs_eq k, if_pos hk]
  simp only [hslot, hkeep, Bool.false_eq_true, if_false]

theorem markLoop_sim_none (b : RingBuff T CAP) (f : σ → T → σ × T × Bool) :
    ∀ (m k : Nat) (s : σ) (data : List (Option T)) (w sz : Nat),
      k + m = b.size → data.length = CAP → b.size ≤ CAP →
      markListO f s ((windowList b.reader b.size CAP data).drop k) = none →
      (List.range' k m).foldl (b.markStep f) (some (s, data, w, sz)) = none := by
  intro m
  induction m with
  | zero =>
    intro k s data w sz hk hlen hn hmark
    have hdrop : (windowList b.reader b.size CAP data).drop k = [] := by
      apply List.drop_eq_nil_of_le
      rw [windowList_length]; omega
    rw [hdrop] at hmark
    simp [markListO] at hmark
  | succ m ih =>
    intro k s data w sz hk hlen hn hmark
    have hkn : k < b.size := by omega
    have hklt : k < (windowList b.reader b.size CAP data).length := by
      rw [windowList_length]; omega
    rw [List.drop_eq_getElem_cons hklt, windowList_getElem _ _ _ _ hklt] at hmark
    rw [List.range'_succ, List.foldl_cons]
    cases hslot : data.getD ((b.reader + k) % CAP) none with
    | none =>
      rw [markStep_panic b f s data w sz k hkn hslot]
      exact foldl_markStep_none b f _
    | some e =>
      rw [hslot] at hmark
      simp only [markListO] at hmark
      have hrec : markListO f (f s e).1
          ((windowList b.reader b.size CAP data).drop (k + 1)) = none := by
        cases hrec' : markListO f (f s e).1
            ((windowList b.reader b.size CAP data).drop (k + 1)) with
        | none => rfl
        | some q => rw [hrec'] at hmark; simp at hmark
      have hwin : ∀ v : Option T,
          (windowList b.reader b.size CAP
            (data.set ((b.reader + k) % CAP) v)).drop (k + 1) =
          (windowList b.reader b.size CAP data).drop (k + 1) := by
        intro v
        rw [windowList_set hlen hn hkn, List.drop_set, if_pos (by omega)]
      by_cases hkeep : (f s e).2.2
      · rw [markStep_keep b f s data w sz k hkn e hslot hkeep]
        exact ih (k + 1) (f s e).1 _ w sz (by omega)
          (by rw [List.length_set]; exact hlen) hn (by rw [hwin]; exact hrec)
      · rw [markStep_reject b f s data w sz k hkn e hslot (by simpa using hkeep)]
        exact ih (k + 1) (f s e).1 _ (b.previous_index w) (sz - 1) (by omega)
          (by rw [List.length_set]; exact hlen) hn (by rw [hwin]; exact hrec)

theorem markLoop_sim_some (b : RingBuff T CAP) (f : σ → T → σ × T × Bool) :
    ∀ (m k : Nat) (s : σ) (data : List (Option T)) (w sz : Nat)
      (s' : σ) (M : List (Option T)),
      k + m = b.size → data.length = CAP → b.size ≤ CAP →
      markListO f s ((windowList b.reader b.size CAP data).drop k)
        = some (s', M) →
      ∃ data' : List (Option T),
        (List.range' k m).foldl (b.markStep f) (some (s, data, w, sz)) =
          some (s', data', b.previous_index^[noneCount M] w, sz - noneCount M) ∧
        data'.length = CAP ∧
        (∀ idx, idx < k →
          (windowList b.reader b.size CAP data').getD idx none =
            (windowList b.reader b.size CAP data).getD idx none) ∧
        (windowList b.reader b.size CAP data').drop k = M := by
  intro m
  induction m with
  | zero =>
    intro k s data w sz s' M hk hlen hn hmark
    have hdrop : (windowList b.reader b.size CAP data).drop k = [] := by
      apply List.drop_eq_nil_of_le
      rw [windowList_length]; omega
    rw [hdrop] at hmark
    simp only [markListO, Option.some.injEq, Prod.mk.injEq] at hmark
    obtain ⟨rfl, rfl⟩ := hmark
    refine ⟨data, ?_, hlen, fun idx _ => rfl, hdrop⟩
    rw [noneCount_nil]
    rfl
  | succ m ih =>
    intro k s data w sz s' M hk hlen hn hmark
    have hkn : k < b.size := by omega
    have hklt : k < (windowList b.reader b.size CAP data).length := by
      rw [windowList_length]; omega
    rw [List.drop_eq_getElem_cons hklt, windowList_getElem _ _ _ _ hklt] at hmark
    rw [List.range'_succ, List.foldl_cons]
    cases hslot : data.getD ((b.reader + k) % CAP) none with
    | none => rw [hslot] at hmark; cases hmark
    | some e =>
      rw [hslot] at hmark
      simp only [markListO] at hmark
      cases hrec : markListO f (f s e).1
          ((windowList b.reader b.size CAP data).drop (k + 1)) with
      | none => rw [hrec] at hmark; cases hmark
      | some q =>
        obtain ⟨s₁, M₁⟩ := q
        simp only [hrec, Option.map_some', Option.some.injEq,
          Prod.mk.injEq] at hmark
        obtain ⟨rfl, rfl⟩ := hmark
        have hwin : ∀ v : Option T,
            windowList b.reader b.size CAP (data.set ((b.reader + k) % CAP) v)
              = (windowList b.reader b.size CAP data).set k v :=
          fun v => windowList_set hlen hn hkn v
        have hwind : ∀ v : Option T,
            (windowList b.reader b.size CAP
              (data.set ((b.reader + k) % CAP) v)).drop (k + 1) =
            (windowList b.reader b.size CAP data).drop (k + 1) := by
          intro v
          rw [hwin, List.drop_set, if_pos (by omega)]
        by_cases hkeep : (f s e).2.2
        · rw [markStep_keep b f s data w sz k hkn e hslot hkeep]
          obtain ⟨data', h1, h2, h3, h4⟩ := ih (k + 1) (f s e).1
            (data.set ((b.reader + k) % CAP) (some (f s e).2.1)) w sz s₁ M₁
            (by omega) (by rw [List.length_set]; exact hlen) hn
            (by rw [hwind]; exact hrec)
          refine ⟨data', ?_, h2, ?_, ?_⟩
          · rw [h1, if_pos hkeep, noneCount_cons_some]
          · intro idx hidx
            rw [h3 idx (by omega), hwin, List.getD_eq_getElem?_getD,
              List.getElem?_set_ne (by omega), ← List.getD_eq_getElem?_getD]
          · have hklt' : k < (windowList b.reader b.size CAP data').length := by
              rw [windowList_length]; omega
            rw [List.drop_eq_getElem_cons hklt']
            have hhead : (windowList b.reader b.size CAP data')[k] =
                some (f s e).2.1 := by
              rw [← List.getD_eq_getElem _ none hklt', h3 k (by omega), hwin,
                List.getD_eq_getElem?_getD,
                List.getElem?_set_self (by rw [windowList_length]; omega),
                Option.getD_some]
            rw [hhead, h4, if_pos hkeep]
        · rw [markStep_reject b f s data w sz k hkn e hslot (by simpa using hkeep)]
          obtain ⟨data', h1, h2, h3, h4⟩ := ih (k + 1) (f s e).1
            (data.set ((b.reader + k) % CAP) none) (b.previous_index w) (sz - 1)
            s₁ M₁ (by omega) (by rw [List.length_set]; exact hlen) hn
            (by rw [hwind]; exact hrec)
          refine ⟨data', ?_, h2, ?_, ?_⟩
          · rw [h1, if_neg hkeep, noneCount_cons_none,
              Function.iterate_succ_apply, Nat.sub_sub,
              Nat.add_comm 1 (noneCount M₁)]
          · intro idx hidx
            rw [h3 idx (by omega), hwin, List.getD_eq_getElem?_getD,
              List.getElem?_set_ne (by omega), ← List.getD_eq_getElem?_getD]
          · have hklt' : k < (windowList b.reader b.size CAP data').length := by
              rw [windowList_length]; omega
            rw [List.drop_eq_getElem_cons hklt']
            have hhead : (windowList b.reader b.size CAP data')[k]
                = (none : Option T) := by
              rw [← List.getD_eq_getElem _ none hklt', h3 k (by omega), hwin,
                List.getD_eq_getElem?_getD,
                List.getElem?_set_self (by rw [windowList_length]; omega),
                Option.getD_some]
            rw [hhead, h4, if_neg hkeep]

/-! ### Simulation of the compaction loop -/

theorem find?_congr {p q : Nat → Bool} :
    ∀ l : List Nat, (∀ x ∈ l, p x = q x) → l.find? p = l.find? q := by
  intro l
  induction l with
  | nil => intro _; rfl
  | cons a l ih =>
    intro h
    have ha := h a (List.mem_cons_self a l)
    by_cases hp : p a = true
    · rw [List.find?_cons_of_pos _ hp, List.find?_cons_of_pos _ (ha ▸ hp)]
    · rw [List.find?_cons_of_neg _ hp, List.find?_cons_of_neg _ (ha ▸ hp),
        ih (fun x hx => h x (List.mem_cons_of_mem _ hx))]

theorem get_mut_with_data (b : RingBuff T CAP) (data : List (Option T)) (i : Nat) :
    ({ b with data := data } : RingBuff T CAP).get_mut i =
      if i < b.size then data.getD ((b.reader + i) % CAP) none else none := by
  rw [RingBuff.get_mut_eq, RingBuff.get_eq]

theorem compactStep_sim (b : RingBuff T CAP) (data : List (Option T))
    (hlen : data.length = CAP) (hn : b.size ≤ CAP) {i : Nat} (hi : i < b.size) :
    windowList b.reader b.size CAP (b.compactStep data i) =
      compactListStep b.size (windowList b.reader b.size CAP data) i := by
  have hguard : (({ b with data := data } : RingBuff T CAP).get_mut i)
      = (windowList b.reader b.size CAP data).getD i none := by
    rw [get_mut_with_data, if_pos hi, windowList_getD _ _ _ _ hi]
  have hfind : (List.range' i (b.len - i)).find?
        (fun j => (({ b with data := data } : RingBuff T CAP).get_mut j).isSome)
      = (List.range' i (b.size - i)).find?
        (fun j => ((windowList b.reader b.size CAP data).getD j none).isSome) := by
    show (List.range' i (b.size - i)).find? _ = _
    apply find?_congr
    intro x hx
    have hx' := List.mem_range'_1.mp hx
    rw [get_mut_with_data, if_pos (by omega), windowList_getD _ _ _ _ (by omega)]
  unfold RingBuff.compactStep compactListStep
  rw [hguard, hfind]
  by_cases hempty : ((windowList b.reader b.size CAP data).getD i none).isNone
    = true
  · rw [if_pos hempty, if_pos hempty]
    cases hF : (List.range' i (b.size - i)).find?
        (fun j => ((windowList b.reader b.size CAP data).getD j none).isSome) with
    | none => rfl
    | some j =>
      have hj : j < b.size := by
        have := List.mem_range'_1.mp (List.mem_of_find?_eq_some hF)
        omega
      simp only [RingBuff.rel_abs_eq, hi, hj, if_true]
      exact windowList_swapSlots hlen hn hi hj
  · rw [if_neg hempty, if_neg hempty]

theorem compactStep_length (b : RingBuff T CAP) (data : List (Option T))
    (i : Nat) : (b.compactStep data i).length = data.length := by
  unfold RingBuff.compactStep
  repeat' split
  all_goals first | rfl | rw [length_swapSlots]

theorem foldl_compactStep_length (b : RingBuff T CAP) :
    ∀ (l : List Nat) (data : List (Option T)),
      (l.foldl b.compactStep data).length = data.length := by
  intro l
  induction l with
  | nil => intro data; rfl
  | cons a l ih =>
    intro data
    rw [List.foldl_cons, ih, compactStep_length]

theorem compactFold_sim (b : RingBuff T CAP) (hn : b.size ≤ CAP) :
    ∀ (l : List Nat) (data : List (Option T)), data.length = CAP →
      (∀ j ∈ l, j < b.size) →
      windowList b.reader b.size CAP (l.foldl b.compactStep data) =
        l.foldl (compactListStep b.size) (windowList b.reader b.size CAP data) := by
  intro l
  induction l with
  | nil => intro data _ _; rfl
  | cons a l ih =>
    intro data hlen hmem
    rw [List.foldl_cons, List.foldl_cons,
      ih (b.compactStep data a) (by rw [compactStep_length]; exact hlen)
        (fun j hj => hmem j (List.mem_cons_of_mem _ hj)),
      compactStep_sim b data hlen hn (hmem a (List.mem_cons_self a l))]

theorem previous_index_iterate (b : RingBuff T CAP) (hC : 0 < CAP) :
    ∀ (m : Nat) {w : Nat}, w < CAP →
      b.previous_index^[m] w = (w + m * (CAP - 1)) % CAP := by
  intro m
  induction m with
  | zero =>
    intro w hw
    rw [Function.iterate_zero_apply, Nat.zero_mul, Nat.add_zero,
      Nat.mod_eq_of_lt hw]
  | succ m ih =>
    intro w hw
    rw [Function.iterate_succ_apply, b.previous_index_eq hw,
      ih (Nat.mod_lt _ hC), Nat.mod_add_mod]
    congr 1
    ring

theorem all_isSome_filterMap (L : List (Option T))
    (h : ∀ o ∈ L, o.isSome = true) : (L.filterMap id).map some = L := by
  induction L with
  | nil => rfl
  | cons a l ih =>
    cases a with
    | none =>
      have := h none (List.mem_cons_self _ _)
      simp at this
    | some x =>
      rw [List.filterMap_cons]
      simp only [id_eq]
      rw [List.map_cons, ih (fun o ho => h o (List.mem_cons_of_mem _ ho))]

theorem windowList_take (r CAP : Nat) (data : List (Option T)) {m n : Nat}
    (h : m ≤ n) :
    windowList r m CAP data = (windowList r n CAP data).take m := by
  unfold windowList
  rw [← List.map_take, List.take_range, Nat.min_eq_left h]

/-! ### Master theorem for `retain_mut` on a well-formed buffer -/

theorem retain_mut_master (b : RingBuff T CAP) (hwf : b.wf)
    (f : σ → T → σ × T × Bool) (s : σ) :
    ∃ b' : RingBuff T CAP,
      b.retain_mut f s = some (b', (markFold f s b.contents).1) ∧
      b'.reader = b.reader ∧
      b'.size = (((markFold f s b.contents).2).filterMap id).length ∧
      b'.logicalList = (((markFold f s b.contents).2).filterMap id).map some ∧
      b'.wf := by
  obtain ⟨hlen, hr, hw, hsz, hweq, hslots⟩ := hwf
  have hC : 0 < CAP := by omega
  have hwinsome : ∀ o ∈ windowList b.reader b.size CAP b.data,
      o.isSome = true := by
    intro o ho
    obtain ⟨idx, hidx, rfl⟩ := List.mem_iff_getElem.mp ho
    have hidx' : idx < b.size := by rw [windowList_length] at hidx; exact hidx
    rw [windowList_getElem _ _ _ _ hidx]
    exact hslots idx hidx'
  have hE : (b.contents).map some = windowList b.reader b.size CAP b.data := by
    unfold RingBuff.contents RingBuff.logicalList
    exact all_isSome_filterMap _ hwinsome
  have hmark : markListO f s (windowList b.reader b.size CAP b.data)
      = some ((markFold f s b.contents).1, (markFold f s b.contents).2) := by
    rw [← hE, markListO_map_some]
  obtain ⟨data1, h1, h2, h3, h4⟩ := markLoop_sim_some b f b.size 0 s b.data
    b.writer b.len (markFold f s b.contents).1 (markFold f s b.contents).2
    (by omega) hlen hsz (by rw [List.drop_zero]; exact hmark)
  have hfold1 : (List.range b.len).foldl (b.markStep f)
      (some (s, b.data, b.writer, b.len)) =
      some ((markFold f s b.contents).1, data1,
        b.previous_index^[noneCount (markFold f s b.contents).2] b.writer,
        b.len - noneCount (markFold f s b.contents).2) := by
    rw [List.range_eq_range']
    exact h1
  have hMlen : ((markFold f s b.contents).2).length = b.size := by
    rw [markListO_length f _ s _ _ hmark, windowList_length]
  have hKc : (((markFold f s b.contents).2).filterMap id).length +
      noneCount (markFold f s b.contents).2 = b.size := by
    rw [filterMap_length_add_noneCount, hMlen]
  have hM_eq_win : windowList b.reader b.size CAP data1
      = (markFold f s b.contents).2 := by
    have h4' := h4
    rwa [List.drop_zero] at h4'
  have hfold2 : windowList b.reader b.size CAP
      ((List.range b.len).foldl b.compactStep data1) =
      padCompact (markFold f s b.contents).2 := by
    rw [show (List.range b.len) = List.range b.size from rfl,
      compactFold_sim b hsz (List.range b.size) data1 h2
        (fun j hj => List.mem_range.mp hj),
      hM_eq_win]
    apply foldl_compactListStep
    exact hMlen
  have hret : b.retain_mut f s = some ({ b with
      data := (List.range b.len).foldl b.compactStep data1,
      writer := b.previous_index^[noneCount (markFold f s b.contents).2] b.writer,
      size := b.len - noneCount (markFold f s b.contents).2 },
      (markFold f s b.contents).1) := by
    unfold RingBuff.retain_mut
    simp only [hfold1]
  refine ⟨_, hret, rfl, ?_, ?_, ?_⟩
  · show b.len - noneCount (markFold f s b.contents).2 = _
    have : b.len = b.size := rfl
    omega
  · show windowList b.reader (b.len - noneCount (markFold f s b.contents).2)
        CAP ((List.range b.len).foldl b.compactStep data1) = _
    have hlen' : b.len = b.size := rfl
    have hKle : (((markFold f s b.contents).2).filterMap id).length ≤ b.size := by
      omega
    rw [show b.len - noneCount (markFold f s b.contents).2 =
        (((markFold f s b.contents).2).filterMap id).length by omega]
    rw [windowList_take _ _ _ hKle, hfold2]
    unfold padCompact
    rw [List.take_left' (by rw [List.length_map])]
  · show RingBuff.wf _
    have hd2len : ((List.range b.len).foldl b.compactStep data1).length = CAP := by
      rw [foldl_compactStep_length, h2]
    have hwit := previous_index_iterate b hC
      (noneCount (markFold f s b.contents).2) hw
    refine ⟨hd2len, hr, ?_, ?_, ?_, ?_⟩
    · show b.previous_index^[noneCount (markFold f s b.contents).2] b.writer < CAP
      rw [hwit]
      exact Nat.mod_lt _ hC
    · show b.len - noneCount (markFold f s b.contents).2 ≤ CAP
      have : b.len = b.size := rfl
      omega
    · show b.previous_index^[noneCount (markFold f s b.contents).2] b.writer =
        (b.reader + (b.len - noneCount (markFold f s b.contents).2)) % CAP
      rw [hwit, hweq, Nat.mod_add_mod]
      obtain ⟨d, rfl⟩ : ∃ d, CAP = d + 1 := ⟨CAP - 1, by omega⟩
      have hlen' : b.len = b.size := rfl
      have hstep : b.reader + b.size +
          noneCount (markFold f s b.contents).2 * (d + 1 - 1) =
          (b.reader + (b.len - noneCount (markFold f s b.contents).2)) +
            noneCount (markFold f s b.contents).2 * (d + 1) := by
        rw [Nat.mul_succ]
        have hd : d + 1 - 1 = d := by omega
        rw [hd]
        have hcle : noneCount (markFold f s b.contents).2 ≤ b.size := by omega
        omega
      rw [hstep, Nat.add_mul_mod_self_right]
    · intro i hi
      have hi2 : i < b.len - noneCount (markFold f s b.contents).2 := hi
      show (((List.range b.len).foldl b.compactStep data1).getD
        ((b.reader + i) % (CAP)) none).isSome = true
      have hlen' : b.len = b.size := rfl
      have hi' : i < b.size := by omega
      rw [← windowList_getD b.reader b.size CAP _ hi', hfold2]
      unfold padCompact
      rw [List.getD_eq_getElem?_getD, List.getElem?_append]
      rw [if_pos (by rw [List.length_map]; omega)]
      rw [List.getElem?_map]
      have hilt : i < (((markFold f s b.contents).2).filterMap id).length := by
        omega
      rw [List.getElem?_eq_getElem hilt]
      rfl

/-! ### Well-formedness toolkit -/

theorem logicalList_length (b : RingBuff T CAP) :
    b.logicalList.length = b.size := windowList_length _ _ _ _

theorem wf_all_some (b : RingBuff T CAP) (hwf : b.wf) :
    ∀ o ∈ b.logicalList, o.isSome = true := by
  intro o ho
  obtain ⟨idx, hidx, rfl⟩ := List.mem_iff_getElem.mp ho
  have hidx' : idx < b.size := by rw [logicalList_length] at hidx; exact hidx
  unfold RingBuff.logicalList
  rw [windowList_getElem _ _ _ _ hidx]
  exact hwf.2.2.2.2.2 idx hidx'

theorem wf_logicalList_eq (b : RingBuff T CAP) (hwf : b.wf) :
    b.logicalList = (b.contents).map some :=
  (all_isSome_filterMap _ (wf_all_some b hwf)).symm

theorem contents_length (b : RingBuff T CAP) (hwf : b.wf) :
    b.contents.length = b.size := by
  have h := congrArg List.length (wf_logicalList_eq b hwf)
  rw [List.length_map, logicalList_length] at h
  omega

theorem wf_of_window (b : RingBuff T CAP) (hlen : b.data.length = CAP)
    (hr : b.reader < CAP) (hw : b.writer < CAP) (hsz : b.size ≤ CAP)
    (hweq : b.writer = (b.reader + b.size) % CAP)
    (hall : ∀ o ∈ b.logicalList, o.isSome = true) : b.wf := by
  refine ⟨hlen, hr, hw, hsz, hweq, ?_⟩
  intro i hi
  rw [← windowList_getD b.reader b.size CAP b.data hi]
  have hi' : i < b.logicalList.length := by rw [logicalList_length]; omega
  rw [show (windowList b.reader b.size CAP b.data).getD i none
      = b.logicalList.getD i none from rfl,
    List.getD_eq_getElem _ _ hi']
  exact hall _ (List.getElem_mem hi')

theorem get_eq_logicalList (b : RingBuff T CAP) (i : Nat) :
    b.get i = b.logicalList.getD i none := by
  rw [RingBuff.get_eq]
  rcases Nat.lt_or_ge i b.size with h | h
  · rw [if_pos h, ← windowList_getD b.reader b.size CAP b.data h]
    rfl
  · rw [if_neg (by omega), List.getD_eq_getElem?_getD, List.getElem?_eq_none,
      Option.getD_none]
    rw [logicalList_length]
    omega

/-! ### `pop` on a non-empty well-formed buffer, `clear` -/

theorem pop_state (b : RingBuff T CAP) (hr : b.reader < CAP)
    (hCU : CAP < USIZE) (hsz : b.size ≤ CAP) (hne : b.size ≠ 0) :
    b.pop = (b.data.getD b.reader none,
      { b with
        reader := (b.reader + 1) % CAP,
        size := b.size - 1,
        data := b.data.set b.reader none }) := by
  have hU : 0 < USIZE := by norm_num [USIZE]
  have hdec : (b.size + (USIZE - 1)) % USIZE = b.size - 1 := by
    have h1 : b.size + (USIZE - 1) = (b.size - 1) + USIZE := by omega
    rw [h1, Nat.add_mod_right, Nat.mod_eq_of_lt (by omega)]
  have h0 : b.pop = (b.data.getD b.reader none,
      { b with
        reader := b.next_index b.reader,
        size := (b.size + (USIZE - 1)) % USIZE,
        data := b.data.set b.reader none }) := rfl
  rw [h0, hdec, b.next_index_eq hr]

theorem pop_wf (b : RingBuff T CAP) (hwf : b.wf) (hCU : CAP < USIZE)
    (hne : b.size ≠ 0) :
    ((b.pop).2).wf ∧ (b.pop).2.size = b.size - 1 ∧
      ((b.pop).1).isSome = true := by
  obtain ⟨hlen, hr, hw, hsz, hweq, hslots⟩ := hwf
  have hC : 0 < CAP := by omega
  rw [pop_state b hr hCU hsz hne]
  refine ⟨?_, rfl, ?_⟩
  · unfold RingBuff.wf
    refine ⟨by rw [List.length_set]; exact hlen, Nat.mod_lt _ hC, hw,
      by show b.size - 1 ≤ CAP; omega, ?_, ?_⟩
    · show b.writer = ((b.reader + 1) % CAP + (b.size - 1)) % CAP
      rw [Nat.mod_add_mod, hweq]
      congr 1
      omega
    · intro i hi
      have hi2 : i < b.size - 1 := hi
      show ((b.data.set b.reader none).getD
        (((b.reader + 1) % CAP + i) % CAP) none).isSome = true
      have habs : ((b.reader + 1) % CAP + i) % CAP = (b.reader + (i + 1)) % CAP := by
        rw [Nat.mod_add_mod]
        congr 1
        omega
      rw [habs]
      have hneq : (b.reader + (i + 1)) % CAP ≠ b.reader := by
        intro hcontra
        have h0 : (b.reader + 0) % CAP = b.reader := by
          rw [Nat.add_zero, Nat.mod_eq_of_lt hr]
        have := abs_index_inj (n := b.size) hsz (by omega) (by omega)
          (hcontra.trans h0.symm)
        omega
      rw [List.getD_eq_getElem?_getD, List.getElem?_set_ne (Ne.symm hneq),
        ← List.getD_eq_getElem?_getD]
      exact hslots (i + 1) (by omega)
  · show (b.data.getD b.reader none).isSome = true
    have h0 := hslots 0 (by omega)
    rw [Nat.add_zero, Nat.mod_eq_of_lt hr] at h0
    exact h0

theorem popN_wf (hCU : CAP < USIZE) :
    ∀ (n : Nat) (b : RingBuff T CAP), b.wf → n ≤ b.size →
      (b.popN n).wf ∧ (b.popN n).size = b.size - n := by
  intro n
  induction n with
  | zero =>
    intro b hwf _
    exact ⟨hwf, by show b.size = b.size - 0; omega⟩
  | succ n ih =>
    intro b hwf hle
    have hne : b.size ≠ 0 := by omega
    obtain ⟨hwf', hsz', _⟩ := pop_wf b hwf hCU hne
    show ((b.pop).2.popN n).wf ∧ ((b.pop).2.popN n).size = b.size - (n + 1)
    obtain ⟨h1, h2⟩ := ih (b.pop).2 hwf' (by omega)
    exact ⟨h1, by omega⟩

theorem clear_master (b : RingBuff T CAP) (hwf : b.wf) (hCU : CAP < USIZE) :
    (b.clear).wf ∧ (b.clear).size = 0 ∧ (b.clear).clear = b.clear := by
  obtain ⟨h1, h2⟩ := popN_wf hCU b.size b hwf (Nat.le_refl _)
  have hz : (b.clear).size = 0 := by
    show (b.popN b.size).size = 0
    omega
  refine ⟨h1, hz, ?_⟩
  show (b.clear).popN (b.clear).size = b.clear
  rw [hz]
  exact rfl

/-! ### `push_back` -/

theorem push_back_full_state (b : RingBuff T CAP) (x : T) (hfull : b.size = CAP) :
    b.push_back x =
      { b with
        data := b.data.set b.writer (some x),
        reader := b.next_index b.reader,
        writer := b.next_index b.writer } := by
  unfold RingBuff.push_back RingBuff.is_full
  simp only [hfull, beq_self_eq_true, if_true, Nat.add_zero]
  rfl

theorem push_back_partial_state (b : RingBuff T CAP) (x : T)
    (hpart : b.size ≠ CAP) :
    b.push_back x =
      { b with
        data := b.data.set b.writer (some x),
        writer := b.next_index b.writer,
        size := b.size + 1 } := by
  unfold RingBuff.push_back RingBuff.is_full
  have hbeq : (b.size == CAP) = false := by simp [hpart]
  simp only [hbeq, Bool.false_eq_true, if_false]
  rfl

theorem push_back_full_master (b : RingBuff T CAP) (x : T) (hwf : b.wf)
    (hfull : b.size = CAP) :
    (b.push_back x).wf ∧ (b.push_back x).size = CAP ∧
    (b.push_back x).reader = (b.reader + 1) % CAP ∧
    (b.push_back x).logicalList = b.logicalList.drop 1 ++ [some x] := by
  obtain ⟨hlen, hr, hw, hsz, hweq, hslots⟩ := hwf
  have hC : 0 < CAP := by omega
  have hwr : b.writer = b.reader := by
    rw [hweq, hfull, Nat.add_mod_right, Nat.mod_eq_of_lt hr]
  have hb' : b.push_back x =
      { b with
        data := b.data.set b.reader (some x),
        reader := (b.reader + 1) % CAP,
        writer := (b.reader + 1) % CAP } := by
    rw [push_back_full_state b x hfull, hwr, b.next_index_eq hr]
  have hrlt : b.reader < b.data.length := by omega
  have hlog : (b.push_back x).logicalList = b.logicalList.drop 1 ++ [some x] := by
    rw [hb']
    show windowList ((b.reader + 1) % CAP) b.size CAP
        (b.data.set b.reader (some x)) =
      (windowList b.reader b.size CAP b.data).drop 1 ++ [some x]
    apply List.ext_getElem?
    intro m
    rw [windowList_getElem?, List.getElem?_append, List.length_drop,
      windowList_length]
    rcases Nat.lt_or_ge m (b.size - 1) with hm | hm
    · rw [if_pos (by omega), if_pos hm, List.getElem?_drop, windowList_getElem?,
        if_pos (by omega)]
      have habs : ((b.reader + 1) % CAP + m) % CAP = (b.reader + (1 + m)) % CAP := by
        rw [Nat.mod_add_mod]
        congr 1
        omega
      rw [habs]
      have hne : (b.reader + (1 + m)) % CAP ≠ b.reader := by
        intro hcontra
        have h0 : (b.reader + 0) % CAP = b.reader := by
          rw [Nat.add_zero, Nat.mod_eq_of_lt hr]
        have := abs_index_inj (n := b.size) hsz (by omega) (by omega)
          (hcontra.trans h0.symm)
        omega
      rw [List.getD_eq_getElem?_getD, List.getElem?_set_ne (Ne.symm hne),
        ← List.getD_eq_getElem?_getD]
    · rcases Nat.lt_or_ge m b.size with hm2 | hm2
      · have hmeq : m = b.size - 1 := by omega
        rw [if_pos hm2, if_neg (by omega)]
        have habs : ((b.reader + 1) % CAP + m) % CAP = b.reader := by
          rw [Nat.mod_add_mod, hmeq]
          have : b.reader + 1 + (b.size - 1) = b.reader + CAP := by omega
          rw [this, Nat.add_mod_right, Nat.mod_eq_of_lt hr]
        rw [habs]
        have hsub : m - (b.size - 1) = 0 := by omega
        rw [hsub]
        rw [List.getD_eq_getElem?_getD, List.getElem?_set_self hrlt]
        rfl
      · rw [if_neg (by omega), if_neg (by omega)]
        have hsub : 1 ≤ m - (b.size - 1) := by omega
        rw [List.getElem?_eq_none (by simp; omega)]
  refine ⟨?_, ?_, ?_, hlog⟩
  · apply wf_of_window
    · rw [hb']
      show (b.data.set b.reader (some x)).length = CAP
      rw [List.length_set]
      exact hlen
    · rw [hb']
      exact Nat.mod_lt _ hC
    · rw [hb']
      exact Nat.mod_lt _ hC
    · rw [hb']
      show b.size ≤ CAP
      omega
    · rw [hb']
      show (b.reader + 1) % CAP = ((b.reader + 1) % CAP + b.size) % CAP
      rw [Nat.mod_add_mod, hfull]
      have : b.reader + 1 + CAP = (b.reader + 1) + CAP := by omega
      rw [this, Nat.add_mod_right]
    · rw [hlog]
      intro o ho
      rcases List.mem_append.mp ho with h | h
      · exact wf_all_some b ⟨hlen, hr, hw, hsz, hweq, hslots⟩ o
          (List.mem_of_mem_drop h)
      · rw [List.mem_singleton.mp h]
        rfl
  · rw [hb']
    exact hfull
  · rw [hb']

theorem push_back_partial_master (b : RingBuff T CAP) (x : T) (hwf : b.wf)
    (hpart : b.size < CAP) :
    (b.push_back x).wf ∧ (b.push_back x).size = b.size + 1 ∧
    (b.push_back x).reader = b.reader ∧
    (b.push_back x).logicalList = b.logicalList ++ [some x] := by
  obtain ⟨hlen, hr, hw, hsz, hweq, hslots⟩ := hwf
  have hC : 0 < CAP := by omega
  have hb' : b.push_back x =
      { b with
        data := b.data.set ((b.reader + b.size) % CAP) (some x),
        writer := (b.reader + b.size + 1) % CAP,
        size := b.size + 1 } := by
    rw [push_back_partial_state b x (by omega), hweq,
      b.next_index_eq (Nat.mod_lt _ hC), Nat.mod_add_mod]
  have hwlt : (b.reader + b.size) % CAP < b.data.length := by
    rw [hlen]
    exact Nat.mod_lt _ hC
  have hlog : (b.push_back x).logicalList = b.logicalList ++ [some x] := by
    rw [hb']
    show windowList b.reader (b.size + 1) CAP
        (b.data.set ((b.reader + b.size) % CAP) (some x)) =
      windowList b.reader b.size CAP b.data ++ [some x]
    apply List.ext_getElem?
    intro m
    rw [windowList_getElem?, List.getElem?_append, windowList_length]
    rcases Nat.lt_or_ge m b.size with hm | hm
    · rw [if_pos (by omega), if_pos hm, windowList_getElem?, if_pos hm]
      have hne : (b.reader + b.size) % CAP ≠ (b.reader + m) % CAP := by
        intro hcontra
        have := abs_index_inj (n := b.size + 1) (by omega) (by omega) (by omega)
          hcontra
        omega
      rw [List.getD_eq_getElem?_getD, List.getElem?_set_ne hne,
        ← List.getD_eq_getElem?_getD]
    · rcases Nat.lt_or_ge m (b.size + 1) with hm2 | hm2
      · have hmeq : m = b.size := by omega
        rw [if_pos hm2, if_neg (by omega), hmeq]
        have hsub : b.size - b.size = 0 := by omega
        rw [hsub, List.getD_eq_getElem?_getD, List.getElem?_set_self hwlt]
        rfl
      · rw [if_neg (by omega), if_neg (by omega)]
        rw [List.getElem?_eq_none (by simp; omega)]
  refine ⟨?_, ?_, ?_, hlog⟩
  · apply wf_of_window
    · rw [hb']
      show (b.data.set ((b.reader + b.size) % CAP) (some x)).length = CAP
      rw [List.length_set]
      exact hlen
    · rw [hb']
      exact hr
    · rw [hb']
      exact Nat.mod_lt _ hC
    · rw [hb']
      show b.size + 1 ≤ CAP
      omega
    · rw [hb']
      show (b.reader + b.size + 1) % CAP = (b.reader + (b.size + 1)) % CAP
      congr 1
    · rw [hlog]
      intro o ho
      rcases List.mem_append.mp ho with h | h
      · exact wf_all_some b ⟨hlen, hr, hw, hsz, hweq, hslots⟩ o h
      · rw [List.mem_singleton.mp h]
        rfl
  · rw [hb']
  · rw [hb']

/-! ### The iterator -/

theorem iter_next_end (it : RingBuffIter T CAP) (h : it.count = it.buffer.len) :
    it.next = (none, it) := by
  unfold RingBuffIter.next
  rw [if_pos h]

theorem iter_next_mid (it : RingBuffIter T CAP)
    (h : ¬ it.count = it.buffer.len) :
    it.next = (it.buffer.data.getD it.index none,
      { it with index := it.buffer.next_index it.index,
                count := it.count + 1 }) := by
  unfold RingBuffIter.next
  rw [if_neg h]

theorem collect_succ (it : RingBuffIter T CAP) (fuel : Nat) :
    it.collect (fuel + 1) =
      match it.next with
      | (none, _) => []
      | (some x, it') => x :: it'.collect fuel := rfl

theorem contents_getD (b : RingBuff T CAP) (hwf : b.wf) {k : Nat}
    (hk : k < b.size) (hkc : k < b.contents.length) :
    b.data.getD ((b.reader + k) % CAP) none = some (b.contents[k]) := by
  have h1 : b.logicalList.getD k none = b.data.getD ((b.reader + k) % CAP) none :=
    windowList_getD _ _ _ _ hk
  rw [← h1, wf_logicalList_eq b hwf, List.getD_eq_getElem?_getD,
    List.getElem?_map, List.getElem?_eq_getElem hkc, Option.map_some',
    Option.getD_some]

theorem iter_collect_aux (b : RingBuff T CAP) (hwf : b.wf) :
    ∀ (fuel k : Nat), k ≤ b.size → b.size - k ≤ fuel →
      RingBuffIter.collect ⟨b, (b.reader + k) % CAP, k⟩ fuel =
        (b.contents).drop k := by
  have hC : 0 < CAP := by have := hwf.2.1; omega
  intro fuel
  induction fuel with
  | zero =>
    intro k hk hfuel
    have hkeq : k = b.size := by omega
    show ([] : List T) = _
    rw [hkeq, ← contents_length b hwf, List.drop_length]
  | succ fuel ih =>
    intro k hk hfuel
    rcases Nat.eq_or_lt_of_le hk with hkeq | hklt
    · rw [collect_succ, iter_next_end _ hkeq]
      rw [hkeq, ← contents_length b hwf, List.drop_length]
    · have hkc : k < b.contents.length := by rw [contents_length b hwf]; omega
      have hnext : (⟨b, (b.reader + k) % CAP, k⟩ : RingBuffIter T CAP).next
          = (some (b.contents[k]),
             ⟨b, (b.reader + (k + 1)) % CAP, k + 1⟩) := by
        rw [iter_next_mid _ (by show ¬ k = b.size; omega)]
        show (b.data.getD ((b.reader + k) % CAP) none,
          (⟨b, b.next_index ((b.reader + k) % CAP), k + 1⟩ : RingBuffIter T CAP))
          = _
        rw [contents_getD b hwf hklt hkc,
          b.next_index_eq (Nat.mod_lt _ hC), Nat.mod_add_mod, Nat.add_assoc]
      rw [collect_succ, hnext]
      show b.contents[k] :: RingBuffIter.collect
          ⟨b, (b.reader + (k + 1)) % CAP, k + 1⟩ fuel = _
      rw [ih (k + 1) (by omega) (by omega),
        List.drop_eq_getElem_cons hkc]

theorem iter_collect (b : RingBuff T CAP) (hwf : b.wf) (fuel : Nat)
    (hfuel : b.size ≤ fuel) : (b.iter).collect fuel = b.contents := by
  have h0 : b.iter = ⟨b, (b.reader + 0) % CAP, 0⟩ := by
    unfold RingBuff.iter
    rw [Nat.add_zero, Nat.mod_eq_of_lt hwf.2.1]
  rw [h0, iter_collect_aux b hwf fuel 0 (by omega) (by omega), List.drop_zero]

/-! ### `retain_mut` with an always-true, non-mutating predicate -/

theorem set_getD_self (l : List (Option T)) (a : Nat) (v : Option T)
    (h : l.getD a none = v) (ha : a < l.length) : l.set a v = l := by
  apply List.ext_getElem?
  intro m
  rw [List.getElem?_set]
  by_cases hm : a = m
  · subst hm
    rw [if_pos rfl, if_pos ha, ← h, List.getD_eq_getElem _ _ ha,
      List.getElem?_eq_getElem ha]
  · rw [if_neg hm]

theorem markLoop_id (b : RingBuff T CAP) (f : σ → T → σ × T × Bool)
    (hf : ∀ s e, (f s e).2.1 = e ∧ (f s e).2.2 = true)
    (hlen : b.data.length = CAP) (hsz : b.size ≤ CAP)
    (hslots : ∀ i, i < b.size →
      (b.data.getD ((b.reader + i) % CAP) none).isSome = true) :
    ∀ (m k : Nat) (s : σ), k + m = b.size →
      ∃ s', (List.range' k m).foldl (b.markStep f)
          (some (s, b.data, b.writer, b.len)) =
        some (s', b.data, b.writer, b.len) := by
  intro m
  induction m with
  | zero => intro k s _; exact ⟨s, rfl⟩
  | succ m ih =>
    intro k s hkm
    have hk : k < b.size := by omega
    have hC : 0 < CAP := by omega
    obtain ⟨e, he⟩ := Option.isSome_iff_exists.mp (hslots k hk)
    rw [List.range'_succ, List.foldl_cons,
      markStep_keep b f s b.data b.writer b.len k hk e he (hf s e).2]
    rw [(hf s e).1, set_getD_self _ _ _ he (by rw [hlen]; exact Nat.mod_lt _ hC)]
    exact ih (k + 1) (f s e).1 (by omega)

theorem compactLoop_id (b : RingBuff T CAP)
    (hslots : ∀ i, i < b.size →
      (b.data.getD ((b.reader + i) % CAP) none).isSome = true) :
    ∀ (l : List Nat), (∀ j ∈ l, j < b.size) →
      l.foldl b.compactStep b.data = b.data := by
  intro l
  induction l with
  | nil => intro _; rfl
  | cons a l ih =>
    intro hmem
    have ha : a < b.size := hmem a (List.mem_cons_self a l)
    have hstep : b.compactStep b.data a = b.data := by
      unfold RingBuff.compactStep
      rw [if_neg]
      rw [get_mut_with_data, if_pos ha]
      have := hslots a ha
      intro hcontra
      rw [Option.isNone_iff_eq_none] at hcontra
      rw [hcontra] at this
      cases this
    rw [List.foldl_cons, hstep]
    exact ih (fun j hj => hmem j (List.mem_cons_of_mem _ hj))

theorem retain_mut_keep_all (b : RingBuff T CAP) (hwf : b.wf)
    (f : σ → T → σ × T × Bool)
    (hf : ∀ s e, (f s e).2.1 = e ∧ (f s e).2.2 = true) (s : σ) :
    ∃ s', b.retain_mut f s = some (b, s') := by
  obtain ⟨hlen, hr, hw, hsz, hweq, hslots⟩ := hwf
  obtain ⟨s', hfold⟩ := markLoop_id b f hf hlen hsz hslots b.size 0 s (by omega)
  refine ⟨s', ?_⟩
  unfold RingBuff.retain_mut
  rw [show (List.range b.len).foldl (b.markStep f)
        (some (s, b.data, b.writer, b.len))
      = some (s', b.data, b.writer, b.len) by
    rw [List.range_eq_range']; exact hfold]
  show some (({ b with
      data := (List.range b.len).foldl b.compactStep b.data,
      writer := b.writer,
      size := b.len } : RingBuff T CAP), s') = some (b, s')
  rw [show (List.range b.len).foldl b.compactStep b.data = b.data from
    compactLoop_id b hslots _ (fun j hj => List.mem_range.mp hj)]
  rfl

/-! ### `new` and `get_mut_write` -/

theorem new_wf (T : Type) (hC : 0 < CAP) : (RingBuff.new T CAP).wf := by
  refine ⟨List.length_replicate _ _, hC, hC, by show (0 : Nat) ≤ CAP; omega,
    ?_, ?_⟩
  · show (0 : Nat) = (0 + 0) % CAP
    rw [Nat.add_zero, Nat.zero_mod]
  · intro i hi
    cases hi

theorem get_mut_write_wf (b : RingBuff T CAP) (hwf : b.wf) (i : Nat) (x : T) :
    (b.get_mut_write i x).wf := by
  obtain ⟨hlen, hr, hw, hsz, hweq, hslots⟩ := hwf
  have hC : 0 < CAP := by omega
  unfold RingBuff.get_mut_write
  rcases Nat.lt_or_ge i b.size with hi | hi
  · rw [if_neg (by show ¬ i ≥ b.size; omega)]
    simp only [b.rel_abs_eq, hi, if_true]
    by_cases hsome : (b.data.getD ((b.reader + i) % CAP) none).isSome = true
    · rw [if_pos hsome]
      refine ⟨by rw [List.length_set]; exact hlen, hr, hw, hsz, hweq, ?_⟩
      intro j hj
      show ((b.data.set ((b.reader + i) % CAP) (some x)).getD
        ((b.reader + j) % CAP) none).isSome = true
      by_cases hij : (b.reader + i) % CAP = (b.reader + j) % CAP
      · rw [← hij, List.getD_eq_getElem?_getD,
          List.getElem?_set_self (by rw [hlen]; exact Nat.mod_lt _ hC)]
        rfl
      · rw [List.getD_eq_getElem?_getD, List.getElem?_set_ne hij,
          ← List.getD_eq_getElem?_getD]
        exact hslots j hj
    · rw [if_neg hsome]
      exact ⟨hlen, hr, hw, hsz, hweq, hslots⟩
  · rw [if_pos (by show i ≥ b.size; omega)]
    exact ⟨hlen, hr, hw, hsz, hweq, hslots⟩

/-! ### Remaining small helpers -/

theorem filterMap_id_map_some (E : List T) : (E.map some).filterMap id = E := by
  induction E with
  | nil => rfl
  | cons a l ih =>
    rw [List.map_cons, List.filterMap_cons]
    simp only [id_eq]
    rw [ih]

theorem markFold_logging (p : T → Bool) :
    ∀ (E trace : List T),
      markFold (fun (tr : List T) e => (tr ++ [e], e, p e)) trace E =
        (trace ++ E, E.map (fun e => if p e then some e else none)) := by
  intro E
  induction E with
  | nil => intro trace; rw [List.append_nil]; rfl
  | cons a l ih =>
    intro trace
    show ((markFold _ (trace ++ [a]) l).1,
      (if p a then some a else none) :: (markFold _ (trace ++ [a]) l).2) = _
    rw [ih (trace ++ [a]), List.append_assoc, List.singleton_append,
      List.map_cons]

theorem filterMap_id_map_ite (p : T → Bool) (E : List T) :
    (E.map (fun e => if p e then some e else none)).filterMap id
      = E.filter p := by
  induction E with
  | nil => rfl
  | cons a l ih =>
    rw [List.map_cons, List.filterMap_cons, List.filter_cons]
    by_cases hp : p a = true
    · rw [if_pos hp, if_pos hp]
      simp only [id_eq]
      rw [ih]
    · rw [if_neg hp, if_neg hp]
      simp only [id_eq]
      rw [ih]

/-! ### The claims -/

/-- C1: the spec says `pop()` on an empty buffer fails with an empty result and
leaves the buffer unchanged.  The code has no emptiness check
(src/src/lib.rs:72-78): on the freshly constructed empty `RingBuff<_, 4>`,
`pop` returns `None` but decrements `size` through zero — `usize` underflow
that wraps to `2 ^ 64 - 1` in a release build (a debug build aborts instead,
which is uncontrolled termination) — and advances `reader` to 1: the buffer is
corrupted, not left unchanged. -/
theorem C1_pop_empty_corrupts_state :
    (RingBuff.new Nat 4).size = 0 ∧
    ((RingBuff.new Nat 4).pop).1 = none ∧
    ((RingBuff.new Nat 4).pop).2.size = USIZE - 1 ∧
    ((RingBuff.new Nat 4).pop).2.reader = 1 := by
  refine ⟨rfl, rfl, ?_, rfl⟩
  show (0 + (USIZE - 1)) % USIZE = USIZE - 1
  norm_num [USIZE]

/-- C5 counterexample: construction with capacity 0 does not fail.  There is no
`InvalidCapacity` (or any error value) anywhere in src/src/lib.rs:40-49:
`RingBuff::<_, 0>::new()` is total and returns an ordinary (degenerate) empty
buffer. -/
theorem C5_new_zero_capacity_succeeds :
    RingBuff.new Nat 0 = ⟨[], 0, 0, 0⟩ ∧ (RingBuff.new Nat 0).size = 0 :=
  ⟨rfl, rfl⟩

/-- C5 (amended): construction always succeeds, for every capacity including 0,
and yields an empty buffer with `head = tail = count = 0` and all `CAP` slots
empty; no capacity validation is performed. -/
theorem C5_new_always_succeeds (T : Type) (CAP : Nat) :
    (RingBuff.new T CAP).reader = 0 ∧ (RingBuff.new T CAP).writer = 0 ∧
    (RingBuff.new T CAP).size = 0 ∧
    (RingBuff.new T CAP).data = List.replicate CAP none :=
  ⟨rfl, rfl, rfl, rfl⟩

/-- C6: on a well-formed buffer, `get i` (and `get_mut i`, which performs the
same lookup) returns `none` exactly when `i ≥ len()`; for `i < len()` it
returns the occupied slot at physical index `(head + i) mod CAP`.  Neither
call moves any cursor: both are pure functions of the state in this model. -/
theorem C6_get_spec (b : RingBuff T CAP) (i : Nat) (hwf : b.wf) :
    (b.get i = none ↔ b.size ≤ i) ∧
    b.get_mut i = b.get i ∧
    (i < b.size → b.get i = b.data.getD ((b.reader + i) % CAP) none ∧
      (b.get i).isSome = true) := by
  refine ⟨⟨?_, ?_⟩, RingBuff.get_mut_eq b i, ?_⟩
  · intro hnone
    by_contra hge
    have hlt : i < b.size := by omega
    rw [RingBuff.get_eq, if_pos hlt] at hnone
    have hs := hwf.2.2.2.2.2 i hlt
    rw [hnone] at hs
    cases hs
  · intro hge
    rw [RingBuff.get_eq, if_neg (by omega)]
  · intro hlt
    rw [RingBuff.get_eq, if_pos hlt]
    exact ⟨rfl, hwf.2.2.2.2.2 i hlt⟩

theorem C6_get_spec_witness :
    (⟨[some 7, none], 0, 1, 1⟩ : RingBuff Nat 2).wf ∧
    (((⟨[some 7, none], 0, 1, 1⟩ : RingBuff Nat 2).get 0 = none ↔
        (⟨[some 7, none], 0, 1, 1⟩ : RingBuff Nat 2).size ≤ 0) ∧
      (⟨[some 7, none], 0, 1, 1⟩ : RingBuff Nat 2).get_mut 0 =
        (⟨[some 7, none], 0, 1, 1⟩ : RingBuff Nat 2).get 0 ∧
      (0 < (⟨[some 7, none], 0, 1, 1⟩ : RingBuff Nat 2).size →
        (⟨[some 7, none], 0, 1, 1⟩ : RingBuff Nat 2).get 0 =
          (⟨[some 7, none], 0, 1, 1⟩ : RingBuff Nat 2).data.getD
            (((⟨[some 7, none], 0, 1, 1⟩ : RingBuff Nat 2).reader + 0) % 2)
            none ∧
        ((⟨[some 7, none], 0, 1, 1⟩ : RingBuff Nat 2).get 0).isSome = true)) :=
  ⟨by decide, C6_get_spec _ 0 (by decide)⟩

/-- C9: on a well-formed buffer, `clear()` leaves an empty (`count = 0`,
`is_empty`) well-formed buffer, and it is idempotent: clearing twice gives
exactly the same state as clearing once.  (`CAP < 2 ^ 64` holds for every
`usize` capacity; it rules out the unrepresentable case in the `Nat` model.) -/
theorem C9_clear_spec (b : RingBuff T CAP) (hwf : b.wf) (hCU : CAP < USIZE) :
    (b.clear).size = 0 ∧ (b.clear).is_empty = true ∧ (b.clear).wf ∧
    (b.clear).clear = b.clear := by
  obtain ⟨h1, h2, h3⟩ := clear_master b hwf hCU
  refine ⟨h2, ?_, h1, h3⟩
  unfold RingBuff.is_empty
  rw [h2]
  rfl

theorem C9_clear_spec_witness :
    ((⟨[some 3], 0, 0, 1⟩ : RingBuff Nat 1).wf ∧ 1 < USIZE) ∧
    (((⟨[some 3], 0, 0, 1⟩ : RingBuff Nat 1).clear).size = 0 ∧
      ((⟨[some 3], 0, 0, 1⟩ : RingBuff Nat 1).clear).is_empty = true ∧
      ((⟨[some 3], 0, 0, 1⟩ : RingBuff Nat 1).clear).wf ∧
      ((⟨[some 3], 0, 0, 1⟩ : RingBuff Nat 1).clear).clear =
        (⟨[some 3], 0, 0, 1⟩ : RingBuff Nat 1).clear) :=
  ⟨⟨by decide, by norm_num [USIZE]⟩,
   C9_clear_spec _ (by decide) (by norm_num [USIZE])⟩

/-- C10: `peek` (absent from src/, modelled from the spec) returns `none` when
`count = 0` and otherwise the occupied slot at `head` — which is the oldest
live element, `get 0` — mutating nothing (it is a pure function of the
state). -/
theorem C10_peek_spec (b : RingBuff T CAP) (hwf : b.wf) :
    (b.size = 0 → b.peek = none) ∧
    (0 < b.size → b.peek = b.data.getD b.reader none ∧
      b.peek = b.get 0 ∧ (b.peek).isSome = true) := by
  constructor
  · intro h
    unfold RingBuff.peek
    rw [if_pos h]
  · intro h
    have hr : b.reader < CAP := hwf.2.1
    have hpeek : b.peek = b.data.getD b.reader none := by
      unfold RingBuff.peek
      rw [if_neg (by omega)]
    refine ⟨hpeek, ?_, ?_⟩
    · rw [hpeek, RingBuff.get_eq, if_pos h, Nat.add_zero, Nat.mod_eq_of_lt hr]
    · rw [hpeek]
      have hs := hwf.2.2.2.2.2 0 h
      rw [Nat.add_zero, Nat.mod_eq_of_lt hr] at hs
      exact hs

theorem C10_peek_spec_witness :
    (⟨[some 9, none, none], 0, 1, 1⟩ : RingBuff Nat 3).wf ∧
    (((⟨[some 9, none, none], 0, 1, 1⟩ : RingBuff Nat 3).size = 0 →
        (⟨[some 9, none, none], 0, 1, 1⟩ : RingBuff Nat 3).peek = none) ∧
      (0 < (⟨[some 9, none, none], 0, 1, 1⟩ : RingBuff Nat 3).size →
        (⟨[some 9, none, none], 0, 1, 1⟩ : RingBuff Nat 3).peek =
          (⟨[some 9, none, none], 0, 1, 1⟩ : RingBuff Nat 3).data.getD
            (⟨[some 9, none, none], 0, 1, 1⟩ : RingBuff Nat 3).reader none ∧
        (⟨[some 9, none, none], 0, 1, 1⟩ : RingBuff Nat 3).peek =
          (⟨[some 9, none, none], 0, 1, 1⟩ : RingBuff Nat 3).get 0 ∧
        ((⟨[some 9, none, none], 0, 1, 1⟩ : RingBuff Nat 3).peek).isSome
          = true)) :=
  ⟨by decide, C10_peek_spec _ (by decide)⟩

/-- C2: `push_back` always succeeds (it is a total function with no error
result).  On a full well-formed buffer (`count = CAP ≥ 1`) it discards exactly
the pre-push oldest element, keeps `count = CAP`, and appends the new element
as the newest; otherwise it increments `count` and appends the new element.
In both cases the pushed element is returned by `get (count' - 1)`, the last
position `iter` yields. -/
theorem C2_push_back_spec (b : RingBuff T CAP) (x : T) (hwf : b.wf)
    (hC : 1 ≤ CAP) :
    (b.size = CAP →
      (b.push_back x).size = CAP ∧
      (b.push_back x).contents = b.contents.drop 1 ++ [x]) ∧
    (b.size < CAP →
      (b.push_back x).size = b.size + 1 ∧
      (b.push_back x).contents = b.contents ++ [x]) ∧
    (b.push_back x).get ((b.push_back x).size - 1) = some x := by
  have hsome_single : (([some x] : List (Option T)).filterMap id) = [x] := rfl
  refine ⟨?_, ?_, ?_⟩
  · intro hfull
    obtain ⟨hwf', hsize', hreader', hlog⟩ := push_back_full_master b x hwf hfull
    refine ⟨hsize', ?_⟩
    show (b.push_back x).logicalList.filterMap id = _
    rw [hlog, List.filterMap_append, hsome_single, wf_logicalList_eq b hwf,
      ← List.map_drop, filterMap_id_map_some]
  · intro hpart
    obtain ⟨hwf', hsize', hreader', hlog⟩ := push_back_partial_master b x hwf hpart
    refine ⟨hsize', ?_⟩
    show (b.push_back x).logicalList.filterMap id = _
    rw [hlog, List.filterMap_append, hsome_single, wf_logicalList_eq b hwf,
      filterMap_id_map_some]
  · rcases Nat.lt_or_ge b.size CAP with hpart | hge
    · obtain ⟨hwf', hsize', _, hlog⟩ := push_back_partial_master b x hwf hpart
      rw [get_eq_logicalList, hsize', hlog]
      have hs : b.size + 1 - 1 = b.size := by omega
      rw [hs, List.getD_eq_getElem?_getD, ← logicalList_length b,
        List.getElem?_concat_length, Option.getD_some]
    · have hfull : b.size = CAP := by
        have := hwf.2.2.2.1
        omega
      obtain ⟨hwf', hsize', _, hlog⟩ := push_back_full_master b x hwf hfull
      rw [get_eq_logicalList, hsize', hlog, List.getD_eq_getElem?_getD,
        List.getElem?_append]
      rw [if_neg (by rw [List.length_drop, logicalList_length, hfull]; omega)]
      rw [List.length_drop, logicalList_length, hfull]
      have hz : CAP - 1 - (CAP - 1) = 0 := by omega
      rw [hz]
      rfl

theorem C2_push_back_spec_witness :
    ((⟨[some 10, some 11, none], 0, 2, 2⟩ : RingBuff Nat 3).wf ∧
      1 ≤ 3) ∧
    (((⟨[some 10, some 11, none], 0, 2, 2⟩ : RingBuff Nat 3).size = 3 →
        ((⟨[some 10, some 11, none], 0, 2, 2⟩ : RingBuff Nat 3).push_back
          42).size = 3 ∧
        ((⟨[some 10, some 11, none], 0, 2, 2⟩ : RingBuff Nat 3).push_back
          42).contents =
          (⟨[some 10, some 11, none], 0, 2, 2⟩ :
            RingBuff Nat 3).contents.drop 1 ++ [42]) ∧
      ((⟨[some 10, some 11, none], 0, 2, 2⟩ : RingBuff Nat 3).size < 3 →
        ((⟨[some 10, some 11, none], 0, 2, 2⟩ : RingBuff Nat 3).push_back
          42).size =
          (⟨[some 10, some 11, none], 0, 2, 2⟩ : RingBuff Nat 3).size + 1 ∧
        ((⟨[some 10, some 11, none], 0, 2, 2⟩ : RingBuff Nat 3).push_back
          42).contents =
          (⟨[some 10, some 11, none], 0, 2, 2⟩ : RingBuff Nat 3).contents
            ++ [42]) ∧
      ((⟨[some 10, some 11, none], 0, 2, 2⟩ : RingBuff Nat 3).push_back
        42).get
        (((⟨[some 10, some 11, none], 0, 2, 2⟩ : RingBuff Nat 3).push_back
          42).size - 1) = some 42) :=
  ⟨⟨by decide, by decide⟩, C2_push_back_spec _ 42 (by decide) (by decide)⟩

/-- C3: `retain_mut` with a pure predicate `p` (threaded here with a logging
closure state, as an `FnMut` closure can observe) evaluates the predicate
exactly once per live element in oldest-to-newest order — the recorded trace
is exactly the old contents; afterwards the live elements are exactly the old
elements satisfying `p`, in their original relative order, `count` is the
number of survivors, and the representation invariant holds again (so
subsequent `push`/`pop`/`get` behave correctly).  An always-false predicate
leaves `count = 0`. -/
theorem C3_retain_mut_spec (b : RingBuff T CAP) (p : T → Bool) (hwf : b.wf) :
    ∃ b' : RingBuff T CAP,
      b.retain_mut (fun (trace : List T) e => (trace ++ [e], e, p e)) [] =
        some (b', b.contents) ∧
      b'.contents = b.contents.filter p ∧
      b'.size = (b.contents.filter p).length ∧
      b'.wf := by
  obtain ⟨b', heq, hreader, hsize, hlog, hwf'⟩ := retain_mut_master b hwf
    (fun (trace : List T) e => (trace ++ [e], e, p e)) []
  simp only [markFold_logging p b.contents [], List.nil_append]
    at heq hsize hlog
  refine ⟨b', heq, ?_, ?_, hwf'⟩
  · show b'.logicalList.filterMap id = _
    rw [hlog, filterMap_id_map_some, filterMap_id_map_ite]
  · rw [hsize, filterMap_id_map_ite]

theorem C3_retain_mut_spec_witness :
    (⟨[some 1, some 2, some 3, none], 0, 3, 3⟩ : RingBuff Nat 4).wf ∧
    ∃ b' : RingBuff Nat 4,
      (⟨[some 1, some 2, some 3, none], 0, 3, 3⟩ :
          RingBuff Nat 4).retain_mut
        (fun (trace : List Nat) e => (trace ++ [e], e, e % 2 == 1)) [] =
        some (b', (⟨[some 1, some 2, some 3, none], 0, 3, 3⟩ :
          RingBuff Nat 4).contents) ∧
      b'.contents = (⟨[some 1, some 2, some 3, none], 0, 3, 3⟩ :
        RingBuff Nat 4).contents.filter (fun e => e % 2 == 1) ∧
      b'.size = ((⟨[some 1, some 2, some 3, none], 0, 3, 3⟩ :
        RingBuff Nat 4).contents.filter (fun e => e % 2 == 1)).length ∧
      b'.wf :=
  ⟨by decide, C3_retain_mut_spec _ (fun e => e % 2 == 1) (by decide)⟩

/-- C4: every state reachable from a freshly constructed buffer with
`CAP ≥ 1` (and `CAP < 2 ^ 64`, as every `usize` capacity is) by `push_back`,
`pop` on a non-empty buffer, writes through `get_mut`, `clear`, `retain`, and
`retain_mut` satisfies the representation invariant: cursors in range,
`size ≤ CAP`, `writer = (reader + size) mod CAP`, and every live logical slot
`data[(reader + i) mod CAP]`, `i < size`, occupied. -/
theorem C4_reachable_wf (b : RingBuff T CAP) (hC : 1 ≤ CAP)
    (hCU : CAP < USIZE) (hreach : RingBuff.Reachable T CAP b) : b.wf := by
  induction hreach with
  | new => exact new_wf T (by omega)
  | push c x _ ih =>
    rcases Nat.lt_or_ge c.size CAP with hpart | hge
    · exact (push_back_partial_master c x ih hpart).1
    · have hfull : c.size = CAP := by
        have := ih.2.2.2.1
        omega
      exact (push_back_full_master c x ih hfull).1
  | pop c _ hne ih => exact (pop_wf c ih hCU hne).1
  | get_mut_write c i x _ ih => exact get_mut_write_wf c ih i x
  | clear c _ ih => exact (clear_master c ih hCU).1
  | retain c f s b' s' _ hstep ih =>
    obtain ⟨b'', heq, _, _, _, hwf''⟩ := retain_mut_master c ih
      (fun s e => ((f s e).1, e, (f s e).2)) s
    unfold RingBuff.retain at hstep
    rw [heq, Option.some.injEq, Prod.mk.injEq] at hstep
    rw [← hstep.1]
    exact hwf''
  | retain_mut c f s b' s' _ hstep ih =>
    obtain ⟨b'', heq, _, _, _, hwf''⟩ := retain_mut_master c ih f s
    rw [heq, Option.some.injEq, Prod.mk.injEq] at hstep
    rw [← hstep.1]
    exact hwf''

theorem C4_reachable_wf_witness :
    (1 ≤ 2 ∧ 2 < USIZE ∧
      RingBuff.Reachable Nat 2 ((RingBuff.new Nat 2).push_back 5)) ∧
    ((RingBuff.new Nat 2).push_back 5).wf :=
  ⟨⟨by decide, by norm_num [USIZE],
    RingBuff.Reachable.push _ 5 RingBuff.Reachable.new⟩,
   C4_reachable_wf _ (by decide) (by norm_num [USIZE])
     (RingBuff.Reachable.push _ 5 RingBuff.Reachable.new)⟩

/-- C7: on a well-formed buffer, driving `iter()` as a `for` loop does (with
any fuel ≥ `len()`) yields exactly the `len()` live elements oldest-to-newest;
the iterator holds the buffer by reference and `next` never modifies it, and
`iter()` is a pure function of the buffer, so every call restarts the same
sequence. -/
theorem C7_iter_spec (b : RingBuff T CAP) (hwf : b.wf) :
    (∀ fuel, b.size ≤ fuel → (b.iter).collect fuel = b.contents) ∧
    (b.contents).length = b.len ∧
    (b.iter).buffer = b ∧
    (∀ it : RingBuffIter T CAP, ((it.next).2).buffer = it.buffer) := by
  refine ⟨fun fuel h => iter_collect b hwf fuel h, ?_, rfl, ?_⟩
  · rw [contents_length b hwf]
    rfl
  · intro it
    unfold RingBuffIter.next
    by_cases h : it.count = it.buffer.len
    · rw [if_pos h]
    · rw [if_neg h]

theorem C7_iter_spec_witness :
    (⟨[some 4, some 5], 0, 0, 2⟩ : RingBuff Nat 2).wf ∧
    ((∀ fuel, (⟨[some 4, some 5], 0, 0, 2⟩ : RingBuff Nat 2).size ≤ fuel →
        ((⟨[some 4, some 5], 0, 0, 2⟩ : RingBuff Nat 2).iter).collect fuel =
          (⟨[some 4, some 5], 0, 0, 2⟩ : RingBuff Nat 2).contents) ∧
      ((⟨[some 4, some 5], 0, 0, 2⟩ : RingBuff Nat 2).contents).length =
        (⟨[some 4, some 5], 0, 0, 2⟩ : RingBuff Nat 2).len ∧
      ((⟨[some 4, some 5], 0, 0, 2⟩ : RingBuff Nat 2).iter).buffer =
        (⟨[some 4, some 5], 0, 0, 2⟩ : RingBuff Nat 2) ∧
      (∀ it : RingBuffIter Nat 2, ((it.next).2).buffer = it.buffer)) :=
  ⟨by decide, C7_iter_spec _ (by decide)⟩

/-- C8: `retain_mut` with a predicate that keeps every element and mutates
nothing (the closure state may change, the element and verdict may not)
returns the buffer completely unchanged: same `data`, `reader`, `writer`, and
`size`. -/
theorem C8_retain_mut_true_id (b : RingBuff T CAP) (hwf : b.wf)
    (f : σ → T → σ × T × Bool)
    (hf : ∀ s e, (f s e).2.1 = e ∧ (f s e).2.2 = true) (s : σ) :
    ∃ s', b.retain_mut f s = some (b, s') :=
  retain_mut_keep_all b hwf f hf s

theorem C8_retain_mut_true_id_witness :
    ((⟨[some 1, some 2], 1, 1, 2⟩ : RingBuff Nat 2).wf ∧
      (∀ (s : Unit) (e : Nat),
        ((fun (u : Unit) (e : Nat) => (u, e, true)) s e).2.1 = e ∧
        ((fun (u : Unit) (e : Nat) => (u, e, true)) s e).2.2 = true)) ∧
    ∃ s', (⟨[some 1, some 2], 1, 1, 2⟩ : RingBuff Nat 2).retain_mut
        (fun (u : Unit) (e : Nat) => (u, e, true)) () =
      some ((⟨[some 1, some 2], 1, 1, 2⟩ : RingBuff Nat 2), s') :=
  ⟨⟨by decide, fun s e => ⟨rfl, rfl⟩⟩,
   C8_retain_mut_true_id _ (by decide) _ (fun s e => ⟨rfl, rfl⟩) ()⟩
